import Mathlib

/-!
Verification development for the jspm-cli map/trace core
(`src/tracemap.ts` together with its utility module).

The development shallowly embeds the JavaScript source:

* JS objects used as ordered string dictionaries become association lists
  (`List (String × _)`) with JS object semantics: assignment to an existing
  key keeps its position, assignment to a fresh key appends, `delete`
  removes, `Object.keys` snapshots the key list.
* WHATWG URLs are modelled by a small concrete `Url` record with the
  operations the source uses (`href`, `origin`, `pathname`, `search`,
  `hash`, relative resolution with dot-segment normalization).
* `async` control flow is modelled by explicit state machines: an
  interleaved task machine for the dependency tracer with suspension at
  every `await analyze(...)`, and a state-transition model of the
  single-slot `Pool` used as the install gate.
* Fallible code returns `Except`/`Option`.

Functions named after source functions (`isPlain`, `baseUrlRelative`,
`rebaseModel`, `flattenModel`, `resolveModel`, `deepClone`, ...) are
translated from the source.  `getMapMatch` and `getScopeMatches` live in
`installtree.ts`, which is not part of the provided sources; they are
modelled from the specification and marked as such in their doc comments.
-/

/-! ## Character-list string primitives

Kernel-friendly string operations (JS `slice`, `split`, `startsWith`,
`endsWith`, `repeat`) defined by structural recursion on the character
list of a `String`, so that concrete evaluations reduce by `decide`/`rfl`.
All inputs in this development are ASCII, where JS UTF-16 code-unit
indices coincide with character indices. -/

def chars (s : String) : List Char := s.data

def ofChars (l : List Char) : String := ⟨l⟩

/-- JS `s.startsWith(p)`. -/
def sStarts (s p : String) : Bool := (chars p).isPrefixOf (chars s)

/-- JS `s.endsWith(p)`. -/
def sEnds (s p : String) : Bool := (chars p).isSuffixOf (chars s)

/-- JS `s.slice(n)` (character based). -/
def sDropN (s : String) (n : Nat) : String := ofChars ((chars s).drop n)

/-- character length of a string. -/
def sLen (s : String) : Nat := (chars s).length

/-- Split a character list at a separator character. -/
def splitChars (c : Char) : List Char → List (List Char)
  | [] => [[]]
  | a :: rest =>
    let r := splitChars c rest
    if a = c then [] :: r
    else
      match r with
      | [] => [[a]]
      | g :: gs => (a :: g) :: gs

/-- JS `s.split(c)` for a one-character separator. -/
def sSplit (s : String) (c : Char) : List String := (splitChars c (chars s)).map ofChars

/-- JS `"x".repeat(n)` for strings. -/
def sRepeat (s : String) (n : Nat) : String := ofChars (List.flatten (List.replicate n (chars s)))

/-- Join string pieces with a separator character (inverse of `sSplit`). -/
def sJoin (sep : Char) : List String → String
  | [] => ""
  | [a] => a
  | a :: rest => a ++ ofChars [sep] ++ sJoin sep rest

/-! ## Association lists with JS object semantics -/

/-- JS property read `o[k]` (`none` = `undefined`). -/
def alook {β : Type} (l : List (String × β)) (k : String) : Option β :=
  ((l.find? (fun p => p.1 = k))).map (·.2)

/-- JS property write `o[k] = v`: overwrite in place, else append. -/
def aset {β : Type} (l : List (String × β)) (k : String) (v : β) : List (String × β) :=
  if (alook l k).isSome then l.map (fun p => if p.1 = k then (k, v) else p)
  else l ++ [(k, v)]

/-- JS `delete o[k]`. -/
def aerase {β : Type} (l : List (String × β)) (k : String) : List (String × β) :=
  l.filter (fun p => p.1 ≠ k)

/-- JS `Object.keys(o)`. -/
def akeys {β : Type} (l : List (String × β)) : List String := l.map Prod.fst

/-- `alphabetize` from the utility module: rebuild an object with its keys
sorted ascending (JS `Object.keys(obj).sort()`). -/
def alphabetize {β : Type} (l : List (String × β)) : List (String × β) :=
  List.insertionSort (fun a b => a.1 ≤ b.1) l

/-! ## The URL model

A concrete model of the WHATWG URLs the source manipulates:
scheme, host, path segments, search and hash.  `segs` holds the
segments of the pathname after the leading slash, so `pathname`
`"/a/b/"` is `["a", "b", ""]` and `"/"` is `[""]`. -/

structure Url where
  scheme : String
  host : String
  segs : List String
  search : String
  hash : String
deriving DecidableEq, Repr

/-- `url.origin`; for `file:` URLs the JS origin is the string `"null"`. -/
def originOf (u : Url) : String :=
  if u.scheme = "file" then "null" else u.scheme ++ "://" ++ u.host

/-- `url.pathname`. -/
def pathnameOf (u : Url) : String := "/" ++ sJoin '/' u.segs

/-- `url.href` (serialization). -/
def hrefOf (u : Url) : String :=
  u.scheme ++ "://" ++ u.host ++ pathnameOf u ++ u.search ++ u.hash

/-- Does the string begin with `scheme:` (letter, then letters/digits/`+`/`-`/`.`,
then a colon)?  This is the condition under which JS `new URL(s)` parses
a string on its own. -/
def schemeTail : List Char → Bool
  | [] => false
  | ':' :: _ => true
  | c :: r => (c.isAlphanum || c = '+' || c = '-' || c = '.') && schemeTail r

def hasScheme (s : String) : Bool :=
  match chars s with
  | c :: rest => c.isAlpha && schemeTail rest
  | [] => false

/-- Split off a `#fragment` suffix: returns (rest, fragment-with-`#`-or-empty). -/
def splitFrag (s : String) : String × String :=
  match sSplit s '#' with
  | [] => (s, "")
  | [a] => (a, "")
  | a :: rest => (a, "#" ++ sJoin '#' rest)

/-- Split off a `?query` suffix: returns (rest, query-with-`?`-or-empty). -/
def splitQuery (s : String) : String × String :=
  match sSplit s '?' with
  | [] => (s, "")
  | [a] => (a, "")
  | a :: rest => (a, "?" ++ sJoin '?' rest)

/-- WHATWG dot-segment normalization on a segment list: `.` is dropped,
`..` pops the previous segment (clamped at the root); a trailing `.` or
`..` leaves a trailing slash. -/
def normLoop : List String → List String → List String
  | acc, [] => acc.reverse
  | acc, "." :: rest => normLoop acc rest
  | acc, ".." :: rest => normLoop (acc.drop 1) rest
  | acc, s :: rest => normLoop (s :: acc) rest

def normSegs (ss : List String) : List String :=
  let out := normLoop [] ss
  let out := if ss.getLast? = some "." ∨ ss.getLast? = some ".." then out ++ [""] else out
  if out = [] then [""] else out

/-- Parse an absolute URL string `scheme://host/path?query#fragment`. -/
def parseAbs (s : String) : Url :=
  let (s, hsh) := splitFrag s
  let (s, srch) := splitQuery s
  let scheme := ofChars ((chars s).takeWhile (· ≠ ':'))
  let rest := sDropN s (sLen scheme + 1)
  let rest := if sStarts rest "//" then sDropN rest 2 else rest
  let host := ofChars ((chars rest).takeWhile (· ≠ '/'))
  let path := sDropN rest (sLen host)
  let segs := if path = "" then [""] else normSegs (sSplit (sDropN path 1) '/')
  ⟨scheme, host, segs, srch, hsh⟩

/-- JS `new URL(input, base)`: the relative URL resolution the source
relies on. -/
def newURL (input : String) (base : Url) : Url :=
  if hasScheme input then parseAbs input
  else
    let (s, hsh) := splitFrag input
    let (s, srch) := splitQuery s
    if sStarts s "//" then
      let rest := sDropN s 2
      let host := ofChars ((chars rest).takeWhile (· ≠ '/'))
      let path := sDropN rest (sLen host)
      let segs := if path = "" then [""] else normSegs (sSplit (sDropN path 1) '/')
      ⟨base.scheme, host, segs, srch, hsh⟩
    else if sStarts s "/" then
      ⟨base.scheme, base.host, normSegs (sSplit (sDropN s 1) '/'), srch, hsh⟩
    else if s = "" then
      ⟨base.scheme, base.host, base.segs,
        (if srch ≠ "" then srch else base.search), hsh⟩
    else
      ⟨base.scheme, base.host, normSegs (base.segs.dropLast ++ sSplit s '/'), srch, hsh⟩

/-! ## Specifier classification (utility module) -/

/-- `isURL` from the utility module: a specifier beginning with `/`, or one
that `new URL(specifier)` can parse on its own (it carries a scheme). -/
def isURL (specifier : String) : Bool :=
  if sStarts specifier "/" then true else hasScheme specifier

/-- `isPlain` from the utility module: not `./`- or `../`-relative and not
a URL. -/
def isPlain (specifier : String) : Bool :=
  if sStarts specifier "./" || sStarts specifier "../" then false
  else !(isURL specifier)

/-! ## The import-map data model -/

/-- The `ImportMap` interface: `imports`, `scopes` and `depcache` tables,
with `null` targets represented by `none`. -/
structure MapModel where
  imports : List (String × Option String)
  scopes : List (String × List (String × Option String))
  depcache : List (String × List String)
deriving DecidableEq, Repr

/-! ## `TraceMap._baseUrlRelative` -/

/-- The character scan of `_baseUrlRelative`: walk both pathnames while
they agree, remembering the position just after the last shared `/`
(the source tracks `sharedBaseIndex`, the index of that slash; `cut`
here is `sharedBaseIndex + 1`, so the initial `-1` becomes `0`). -/
def sharedCut : List Char → List Char → Nat → Nat → Nat
  | b :: bs, u :: us, i, cut =>
    if b ≠ u then cut
    else sharedCut bs us (i + 1) (if u = '/' then i + 1 else cut)
  | _, _, _, cut => cut

/-- `TraceMap._baseUrlRelative(url)`: re-express `u` relative to `base`.
Translated line by line from the source, including its `../` count
`baseUrlPath.slice(cut).split('/').length`, which also counts the empty
fragment after the trailing slash of the base pathname. -/
def baseUrlRelative (base : Url) (u : Url) : String :=
  let origin := originOf u
  let href := hrefOf u
  let baseUrlHref := hrefOf base
  if sStarts href baseUrlHref then sDropN href (sLen baseUrlHref)
  else if origin ≠ originOf base || !(sStarts href origin) || !(sStarts baseUrlHref origin) then
    href
  else
    let baseUrlPath := pathnameOf base
    let urlPath := pathnameOf u
    let cut := sharedCut (chars baseUrlPath) (chars urlPath) 0 0
    sRepeat "../" (sSplit (sDropN baseUrlPath cut) '/').length
      ++ sDropN urlPath cut ++ u.search ++ u.hash

/-! ## `TraceMap.rebase` -/

/-- `TraceMap.rebase(newBaseUrl)`: translated from the source.  The new
base is resolved against the ambient environment base `envBase` and its
pathname is forced to end in `/`.  Top-level `imports` entries are
rewritten in place; the loop over `scopes` reads each scope's entries
but writes the rebased values into the top-level `imports` table
(`this._map.imports[name] = ...`), leaving `scopes` untouched;
`depcache` is rebuilt with rebased keys and values, bare specifiers
kept as they are.  Returns the new base and the new map. -/
def rebaseModel (envBase : Url) (base : Url) (m : MapModel) (newBaseUrl : String) :
    Url × MapModel :=
  let oldBaseUrl := base
  let nb0 := newURL newBaseUrl envBase
  let nb := if sEnds (pathnameOf nb0) "/" then nb0 else { nb0 with segs := nb0.segs ++ [""] }
  let imports1 := m.imports.map (fun p =>
    match p.2 with
    | none => p
    | some target => (p.1, some (baseUrlRelative nb (newURL target oldBaseUrl))))
  let imports2 := m.scopes.foldl (fun imp sc =>
    sc.2.foldl (fun imp q =>
      match q.2 with
      | none => imp
      | some target => aset imp q.1 (baseUrlRelative nb (newURL target oldBaseUrl))) imp)
    imports1
  let depcache2 := m.depcache.foldl (fun acc d =>
    let importsRebased := d.2.map (fun specifier =>
      if isPlain specifier then specifier
      else baseUrlRelative nb (newURL specifier oldBaseUrl))
    let depRebased := baseUrlRelative nb (newURL d.1 oldBaseUrl)
    aset acc depRebased importsRebased) []
  (nb, { imports := imports2, scopes := m.scopes, depcache := depcache2 })

/-! ## `TraceMap.flatten` -/

/-- The hoist condition of `flatten` (line `if (!existing || new
URL(existing, base).href === targetUrl.href)`): the broader scope lacks
the key (or holds a falsy value: `null` or the empty string), or maps it
to the same absolute URL. -/
def hoistOK (base : Url) (existing : Option (Option String)) (targetUrl : Url) : Bool :=
  match existing with
  | none => true
  | some none => true
  | some (some e) =>
    if e = "" then true else hrefOf (newURL e base) = hrefOf targetUrl

/-- One scope's inner loop of `flatten` when the broader scope key equals
the scope being processed (`scopeBase` and `scopeImports` alias the same
JS object): each hoist assigns and then deletes the same key of the one
object, and stores an alphabetized copy under the scope key; finally the
scope is deleted when every entry was hoisted. -/
def flattenScopeAliased (base : Url) (scopes : List (String × List (String × Option String)))
    (scope : String) : List (String × List (String × Option String)) :=
  let obj0 := (alook scopes scope).getD []
  let names := akeys obj0
  let r := names.foldl (fun (st : List (String × Option String) ×
      List (String × List (String × Option String)) × Bool) name =>
    let (obj, scs, fa) := st
    match alook obj name with
    | none => (obj, scs, fa)
    | some none => (obj, scs, fa)
    | some (some target) =>
      let targetUrl := newURL target base
      if hoistOK base (alook obj name) targetUrl then
        let obj := aerase (aset obj name (some (baseUrlRelative base targetUrl))) name
        (obj, aset scs scope (alphabetize obj), fa)
      else (obj, scs, false)) (obj0, scopes, true)
  if r.2.2 then aerase r.2.1 scope else r.2.1

/-- One scope's inner loop of `flatten` when the broader scope key differs
from the scope being processed: hoisted entries move from the scope's
object into the broader object (stored alphabetized), the mutated scope
object is written back, and the scope is deleted when every entry was
hoisted. -/
def flattenScopeSep (base : Url) (scopes : List (String × List (String × Option String)))
    (scope scopeBaseUrl : String) : List (String × List (String × Option String)) :=
  let objScope0 := (alook scopes scope).getD []
  let objBase0 := (alook scopes scopeBaseUrl).getD []
  let names := akeys objScope0
  let r := names.foldl (fun (st : List (String × Option String) ×
      List (String × Option String) ×
      List (String × List (String × Option String)) × Bool) name =>
    let (ob, os, scs, fa) := st
    let existing := alook ob name
    match alook os name with
    | none => (ob, os, scs, fa)
    | some none => (ob, os, scs, fa)
    | some (some target) =>
      let targetUrl := newURL target base
      if hoistOK base existing targetUrl then
        let ob := aset ob name (some (baseUrlRelative base targetUrl))
        let os := aerase os name
        (ob, os, aset scs scopeBaseUrl (alphabetize ob), fa)
      else (ob, os, scs, false)) (objBase0, objScope0, scopes, true)
  let scs := if (alook r.2.2.1 scope).isSome then aset r.2.2.1 scope r.2.1 else r.2.2.1
  if r.2.2.2 then aerase scs scope else scs

/-- Processing of one scope key by `flatten`: determine the broader
"origin-root" scope key (skipping `file:` scopes), then run the hoist
loop.  Translated from the source. -/
def flattenScopeStep (base : Url) (scopes : List (String × List (String × Option String)))
    (scope : String) : List (String × List (String × Option String)) :=
  match alook scopes scope with
  | none => scopes
  | some _ =>
    let scopeUrl := newURL scope base
    let sbu : Option String :=
      if scopeUrl.scheme = "file" then none
      else if originOf scopeUrl = originOf base && sStarts (hrefOf scopeUrl) (originOf base) then
        some "/"
      else if sStarts (hrefOf scopeUrl) (originOf scopeUrl) then
        some (originOf scopeUrl ++ "/")
      else none
    match sbu with
    | none => scopes
    | some sb =>
      if sb = scope then flattenScopeAliased base scopes scope
      else flattenScopeSep base scopes scope sb

/-- `TraceMap.flatten()`: iterate the snapshot of scope keys, then prune
`depcache` entries whose dependency list is empty. -/
def flattenModel (base : Url) (m : MapModel) : MapModel :=
  let keys := akeys m.scopes
  let scopes := keys.foldl (flattenScopeStep base) m.scopes
  { m with scopes := scopes, depcache := m.depcache.filter (fun p => !p.2.isEmpty) }

/-! ## The specifier resolver -/

/-- The `MODULE_NOT_FOUND` error raised by `resolve`: the message carries
the offending specifier and the referrer URL, and `decorateError`
attaches the code. -/
structure RErr where
  specifier : String
  parent : String
  code : String
deriving DecidableEq, Repr

/-- Modelled from the spec: `getMapMatch` of `installtree.ts` is not under
`src/`; per §4.2 step 3 of the spec, an exact key match wins outright,
failing that the longest key ending in `/` that is a literal prefix of
the specifier wins. -/
def getMapMatch (specifier : String) (tbl : List (String × Option String)) : Option String :=
  if (alook tbl specifier).isSome then some specifier
  else tbl.foldl (fun acc p =>
    if sEnds p.1 "/" && sStarts specifier p.1 &&
        (match acc with
         | none => true
         | some k => decide (sLen k < sLen p.1)) then
      some p.1
    else acc) none

/-- Modelled from the spec: `getScopeMatches` of `installtree.ts` is not
under `src/`; per §4.2 step 2 of the spec, collect every scope whose
absolute URL string (resolved against the base URL) is a prefix of the
referrer's absolute URL, ordered most-specific (longest) first. -/
def getScopeMatches (parentUrl : Url) (scopes : List (String × List (String × Option String)))
    (baseUrl : Url) : List String :=
  let cands := (akeys scopes).filter (fun sc => sStarts (hrefOf parentUrl) (hrefOf (newURL sc baseUrl)))
  List.insertionSort (fun a b => sLen (hrefOf (newURL b baseUrl)) ≤ sLen (hrefOf (newURL a baseUrl)))
    cands

/-- The inner table of a scope (`map.scopes[scope]`). -/
def scopeTbl (scopes : List (String × List (String × Option String))) (sc : String) :
    List (String × Option String) :=
  (alook scopes sc).getD []

/-- The outcome of a `getMapMatch` hit `k` in a table: a `null` target
blocks (`none`), a non-null target is joined with the unmatched
specifier remainder and resolved against the base URL. -/
def matchDispatch (baseUrl : Url) (specifier : String)
    (tbl : List (String × Option String)) (k : String) : Option Url :=
  match alook tbl k with
  | some none => none
  | some (some target) => some (newURL (target ++ sDropN specifier (sLen k)) baseUrl)
  | none => none

/-- The scope loop of `resolve`: try each candidate scope in order; the
first whose table produces a `getMapMatch` determines the result
(`some` = a scope matched, carrying the `null`-or-URL outcome);
`none` = no scope matched at all. -/
def resolveScopeLoop (specifier : String)
    (scopes : List (String × List (String × Option String))) (baseUrl : Url) :
    List String → Option (Option Url)
  | [] => none
  | sc :: rest =>
    match getMapMatch specifier (scopeTbl scopes sc) with
    | some mapMatch =>
      match alook (scopeTbl scopes sc) mapMatch with
      | some none => some none
      | some (some target) =>
        some (some (newURL (target ++ sDropN specifier (sLen mapMatch)) baseUrl))
      | none => some none
    | none => resolveScopeLoop specifier scopes baseUrl rest

/-- The exported `resolve(specifier, parentUrl, map, baseUrl)` function,
translated from the source: non-plain specifiers resolve directly
against the referrer; plain specifiers go through the scope loop, then
the top-level `imports` table, and fail with a `MODULE_NOT_FOUND`
error naming the specifier and the referrer when nothing matched. -/
def resolveModel (specifier : String) (parentUrl : Url) (m : MapModel) (baseUrl : Url) :
    Except RErr (Option Url) :=
  if !(isPlain specifier) then .ok (some (newURL specifier parentUrl))
  else
    match resolveScopeLoop specifier m.scopes baseUrl (getScopeMatches parentUrl m.scopes baseUrl) with
    | some r => .ok r
    | none =>
      match getMapMatch specifier m.imports with
      | some mapMatch =>
        match alook m.imports mapMatch with
        | some none => .ok none
        | some (some target) =>
          .ok (some (newURL (target ++ sDropN specifier (sLen mapMatch)) baseUrl))
        | none => .ok none
      | none => .error ⟨specifier, hrefOf parentUrl, "MODULE_NOT_FOUND"⟩

/-- The first candidate scope producing any match for the specifier
(defined independently of `resolveScopeLoop`, via `List.find?`). -/
def winScope (specifier : String)
    (scopes : List (String × List (String × Option String))) (scs : List String) :
    Option String :=
  scs.find? (fun sc => (getMapMatch specifier (scopeTbl scopes sc)).isSome)

/-- The winning matched entry's target: the target of the first candidate
scope producing a match, or of the top-level `imports` match when no
scope matched; `none` when nothing matched anywhere. -/
def winTarget (specifier : String) (parentUrl : Url) (m : MapModel) (baseUrl : Url) :
    Option (Option String) :=
  match winScope specifier m.scopes (getScopeMatches parentUrl m.scopes baseUrl) with
  | some sc =>
    match getMapMatch specifier (scopeTbl m.scopes sc) with
    | some k => some ((alook (scopeTbl m.scopes sc) k).getD none)
    | none => none
  | none =>
    match getMapMatch specifier m.imports with
    | some k => some ((alook m.imports k).getD none)
    | none => none

/-! ## `upgrade` and `uninstall` preconditions -/

/-- Precondition failures of `upgrade`/`uninstall`. -/
inductive UErr where
  | noPackages
  | notInstalled (pkg : String)
deriving DecidableEq, Repr

/-- JS truthiness of an `imports` lookup: `!this._map.imports[pkg]` is
true when the entry is absent (`undefined`), `null`, or the empty
string. -/
def falsyTarget : Option (Option String) → Bool
  | none => true
  | some none => true
  | some (some s) => s = ""

/-- The shared per-package loop of `upgrade` and `uninstall`: in list
order, throw if the package's current `imports` entry is falsy,
otherwise delete it. -/
def removePkgs : List String → List (String × Option String) →
    Except UErr (List (String × Option String))
  | [], imp => .ok imp
  | p :: ps, imp =>
    if falsyTarget (alook imp p) then .error (.notInstalled p)
    else removePkgs ps (aerase imp p)

/-- `TraceMap.uninstall(packages)`: empty-list check, then the
check-and-delete loop over the named packages; on success the code then
fires `traceInstall({ clean: true, force })`, whose store writes belong
to the external installer collaborator.  The returned map reflects the
deletions. -/
def uninstallModel (m : MapModel) (packages : List String) : Except UErr MapModel :=
  if packages.isEmpty then .error .noPackages
  else (removePkgs packages m.imports).map (fun imp => { m with imports := imp })

/-- `TraceMap.upgrade(packages)`: the same empty-list check and
check-and-delete loop; on success the code then fires
`this.install(packages, opts)`.  The returned map reflects the
deletions. -/
def upgradeModel (m : MapModel) (packages : List String) : Except UErr MapModel :=
  if packages.isEmpty then .error .noPackages
  else (removePkgs packages m.imports).map (fun imp => { m with imports := imp })

/-! ## The install-family gate: event traces

Each mutating operation is abstracted to the sequence of gate and
store-table events its body performs, in program order.  `.acquire` is
`await this._p.job()`, `.release` is the `finally { this._p.next() }`
(or the absence of a gate), `.mutTab` is a write to the `imports`,
`scopes` or `depcache` tables.  The store writes of the external
installer collaborator (its per-package work and its `complete()` step)
are modelled from the spec (§2 data flow, §6 package-installer
contract): they happen between acquisition and release, and are skipped
when the collaborator fails. -/

inductive Ev where
  | acquire
  | release
  | mutTab
deriving DecidableEq, Repr

/-- Store writes of the installer collaborator between `job()` and
`next()`; a failing collaborator performs none (its `complete()` is
never reached). -/
def installerEvs (fails : Bool) : List Ev :=
  if fails then [] else [.mutTab]

/-- `TraceMap.traceInstall`: acquire, installer work inside `try`,
release inside `finally`. -/
def traceInstallEvs (fails : Bool) : List Ev :=
  [.acquire] ++ installerEvs fails ++ [.release]

/-- `TraceMap.lockInstall`: acquire, installer work inside `try`,
release inside `finally`. -/
def lockInstallEvs (fails : Bool) : List Ev :=
  [.acquire] ++ installerEvs fails ++ [.release]

/-- `TraceMap.install`: acquire, installer work inside `try`, release
inside `finally`. -/
def installEvs (fails : Bool) : List Ev :=
  [.acquire] ++ installerEvs fails ++ [.release]

/-- `TraceMap.upgrade` on `k` currently-installed packages: `k` deletions
from the top-level `imports` table with no gate held, then the
delegated `this.install(packages, opts)`. -/
def upgradeEvs (k : Nat) (fails : Bool) : List Ev :=
  List.replicate k .mutTab ++ installEvs fails

/-- `TraceMap.uninstall` on `k` currently-installed packages: `k`
deletions from the top-level `imports` table with no gate held, then
the delegated `this.traceInstall({ clean: true, force })`. -/
def uninstallEvs (k : Nat) (fails : Bool) : List Ev :=
  List.replicate k .mutTab ++ traceInstallEvs fails

/-- `TraceMap.installEnv`: replaces `this._env` (not one of the three
store tables), then delegates to `this.traceInstall({ clean: true })`. -/
def installEnvEvs (fails : Bool) : List Ev :=
  traceInstallEvs fails

/-- Every table mutation in the trace happens while the gate is held
(`held` counts acquisitions minus releases seen so far). -/
def mutGated : List Ev → Nat → Bool
  | [], _ => true
  | .acquire :: r, held => mutGated r (held + 1)
  | .release :: r, held => mutGated r (held - 1)
  | .mutTab :: r, held => decide (0 < held) && mutGated r held

/-- The trace releases the gate exactly as often as it acquires it. -/
def balanced (evs : List Ev) : Bool :=
  decide (evs.count Ev.acquire = evs.count Ev.release)

/-! ## The `Pool` exclusivity gate -/

/-- State of one `Pool(1)` instance: the counter `c`, the queue `q` of
pending resolvers (identified by caller id; `push` appends), and the
instrumentation list `woken` of callers whose queued promise has been
resolved.  In the source, `next()` evaluates `this.q.pop() || (() => {})`
without invoking the popped resolver, so nothing is ever added to
`woken`. -/
structure PoolSt where
  c : Int
  q : List Nat
  woken : List Nat
deriving DecidableEq, Repr

/-- `job()`: increment `c`; when it exceeds the capacity `n`, push a
resolver for this caller and block (`false` = the caller is now awaiting
its queued promise; `true` = the caller proceeds at once). -/
def poolJob (n : Int) (caller : Nat) (s : PoolSt) : PoolSt × Bool :=
  let c := s.c + 1
  if c > n then ({ s with c := c, q := s.q ++ [caller] }, false)
  else ({ s with c := c }, true)

/-- `next()`: decrement `c` and pop the most recently queued resolver.
The popped resolver is the value of the expression
`this.q.pop() || (() => {})`, which the source never calls, so the
popped caller is discarded without being woken. -/
def poolNext (s : PoolSt) : PoolSt :=
  let c := s.c - 1
  match s.q.getLast? with
  | some _ => { s with c := c, q := s.q.dropLast }
  | none => { s with c := c }

/-- Pool events: a caller invoking `job()`, or a settled operation
invoking `next()`. -/
inductive PEv where
  | job (caller : Nat)
  | next
deriving DecidableEq, Repr

def poolStep (n : Int) (s : PoolSt) : PEv → PoolSt
  | .job caller => (poolJob n caller s).1
  | .next => poolNext s

def poolRun (n : Int) (evs : List PEv) (s : PoolSt) : PoolSt :=
  evs.foldl (poolStep n) s

def poolInit : PoolSt := ⟨0, [], []⟩

/-! ## The dependency tracer

`TraceMap.trace` resolves and analyzes recursively.  The external module
analyzer (`analyze`, an external collaborator per §6 of the spec) is a
finite module graph: an association list from resolved URL to the
module's own dependency specifiers and byte size.  Resolution
(`this.resolve(specifier, parentUrl)`) is likewise supplied as a finite
table keyed by (specifier, referrer URL), with `none` for a `null`
resolution; a missing entry stands for a `MODULE_NOT_FOUND` rejection. -/

/-- One record of the `Trace` result: `deps`, `size` (`none` = `NaN`),
`order` (`none` = `NaN`). -/
structure TEntry where
  deps : List (String × Option String)
  size : Option Nat
  order : Option Nat
deriving DecidableEq, Repr

/-- A finite module graph: resolved URL ↦ (dependency specifiers, size). -/
abbrev Graph := List (String × List String × Nat)

/-- A finite resolution table: (specifier, referrer URL) ↦ resolved
URL-or-`null`. -/
abbrev ResTbl := List (String × String × Option String)

def rlook (rt : ResTbl) (specifier parent : String) : Option (Option String) :=
  (rt.find? (fun e => e.1 = specifier && e.2.1 = parent)).map (·.2.2)

/-- Shared traversal state: the per-call top-level `map`, the shared
`trace` table, and the `postOrder` counter. -/
structure TState where
  topMap : List (String × Option String)
  trace : List (String × TEntry)
  post : Nat
deriving DecidableEq, Repr

/-- Which `curMap` a `doTrace` call writes its resolution into: the
top-level `map` for entry specifiers, or `trace[url].deps` for the
dependencies of `url`. -/
inductive Cur where
  | top
  | node (url : String)
deriving DecidableEq, Repr

/-- `curMap[specifier] = resolved`. -/
def setCur (st : TState) (cur : Cur) (specifier : String) (r : Option String) : TState :=
  match cur with
  | .top => { st with topMap := aset st.topMap specifier r }
  | .node u =>
    { st with trace := st.trace.map (fun p =>
        if p.1 = u then (p.1, { p.2 with deps := aset p.2.deps specifier r }) else p) }

/-- `curTrace.size = size`. -/
def setSize (st : TState) (u : String) (size : Nat) : TState :=
  { st with trace := st.trace.map (fun p =>
      if p.1 = u then (p.1, { p.2 with size := some size }) else p) }

/-- `curTrace.order = postOrder++`, executed after the dependency loop. -/
def finishNode (st : TState) (u : String) : TState :=
  { st with
    trace := st.trace.map (fun p =>
      if p.1 = u then (p.1, { p.2 with order := some st.post }) else p),
    post := st.post + 1 }

inductive TErr where
  | fuelOut
  | notFound
  | noAna
deriving DecidableEq, Repr

mutual
/-- `doTrace(specifier, parentUrl, trace, curMap)`, sequential semantics:
resolve, record the resolution in `curMap`, stop on `null` or on a
`trace` hit (the memo/placeholder check), otherwise insert the
placeholder record, consult the analyzer, trace each dependency in
order, and finally assign the postorder number.  `fuel` bounds the
recursion depth; `.fuelOut` cannot occur with fuel exceeding the graph
size (proved below). -/
def doTrace (g : Graph) (rt : ResTbl) : Nat → String → String → Cur → TState →
    Except TErr TState
  | 0, _, _, _, _ => .error .fuelOut
  | fuel + 1, specifier, parentUrl, cur, st =>
    match rlook rt specifier parentUrl with
    | none => .error .notFound
    | some resolved =>
      let st := setCur st cur specifier resolved
      match resolved with
      | none => .ok st
      | some url =>
        if (alook st.trace url).isSome then .ok st
        else
          let st := { st with trace := st.trace ++ [(url, ⟨[], none, none⟩)] }
          match alook g url with
          | none => .error .noAna
          | some a =>
            let st := setSize st url a.2
            match doTraceList g rt fuel a.1 url st with
            | .error e => .error e
            | .ok st => .ok (finishNode st url)
termination_by fuel _ _ _ _ => (fuel, 0)

/-- The `for (const dep of deps) await doTrace(dep, resolved, trace,
curTrace.deps)` loop. -/
def doTraceList (g : Graph) (rt : ResTbl) : Nat → List String → String → TState →
    Except TErr TState
  | _, [], _, st => .ok st
  | fuel, d :: ds, url, st =>
    match doTrace g rt fuel d url (.node url) st with
    | .error e => .error e
    | .ok st => doTraceList g rt fuel ds url st
termination_by fuel ds _ _ => (fuel, ds.length + 1)
end

/-- The entry loop of `trace(specifiers)`, sequential semantics: each
entry specifier is traced to completion before the next begins. -/
def traceEntries (g : Graph) (rt : ResTbl) (fuel : Nat) (base : String) :
    List String → TState → Except TErr TState
  | [], st => .ok st
  | e :: es, st =>
    match doTrace g rt fuel e base .top st with
    | .error er => .error er
    | .ok st => traceEntries g rt fuel base es st

/-- `trace(specifiers)` under the sequential schedule, from the empty
state. -/
def traceSeq (g : Graph) (rt : ResTbl) (fuel : Nat) (base : String)
    (entries : List String) : Except TErr TState :=
  traceEntries g rt fuel base entries ⟨[], [], 0⟩

/-! ### The interleaved machine

`trace` launches `specifiers.map(specifier => doTrace(...))` under
`Promise.all`: each entry's traversal runs synchronously up to its first
`await analyze(...)`, and thereafter the pending `analyze` promises
settle in an order chosen by the analyzer collaborator.  The machine
below makes those suspension points explicit: a suspended task is a
stack of frames, the deepest frame awaiting its `analyze` result, the
outer frames parked inside their dependency loops. -/

/-- One frame of a suspended traversal: the node's URL and its
dependency specifiers not yet traced (the head frame's `todo` is filled
in when its `analyze` result is delivered). -/
structure MFrame where
  url : String
  todo : List String
deriving DecidableEq, Repr

abbrev MTask := List MFrame

/-- Run one task synchronously until its next `await analyze` (returning
the new suspended task) or until it completes (returning `none` for the
task).  Resolution records, `null` branches, memo hits and postorder
assignment all happen inside such a synchronous segment, exactly as in
`doTrace`. -/
def mrun (g : Graph) (rt : ResTbl) : Nat → TState → MTask →
    Option (TState × Option MTask)
  | 0, _, _ => none
  | _ + 1, st, [] => some (st, none)
  | fuel + 1, st, ⟨u, []⟩ :: rest => mrun g rt fuel (finishNode st u) rest
  | fuel + 1, st, ⟨u, d :: ds⟩ :: rest =>
    match rlook rt d u with
    | none => none
    | some resolved =>
      let st := setCur st (.node u) d resolved
      match resolved with
      | none => mrun g rt fuel st (⟨u, ds⟩ :: rest)
      | some v =>
        if (alook st.trace v).isSome then mrun g rt fuel st (⟨u, ds⟩ :: rest)
        else
          let st := { st with trace := st.trace ++ [(v, ⟨[], none, none⟩)] }
          some (st, some (⟨v, []⟩ :: ⟨u, ds⟩ :: rest))

/-- The synchronous prefix of one entry's `doTrace` call, run at launch
time: resolve against the base, record in the top-level map, and either
finish at once (`null` or memo hit) or insert the placeholder and
suspend at `await analyze`. -/
def mstart (rt : ResTbl) (base : String) (st : TState) (entry : String) :
    Option (TState × Option MTask)  :=
  match rlook rt entry base with
  | none => none
  | some resolved =>
    let st := setCur st .top entry resolved
    match resolved with
    | none => some (st, none)
    | some v =>
      if (alook st.trace v).isSome then some (st, none)
      else
        let st := { st with trace := st.trace ++ [(v, ⟨[], none, none⟩)] }
        some (st, some [⟨v, []⟩])

/-- Deliver the pending `analyze` result to a suspended task: set the
node's `size`, fill in its dependency list, and run the task's next
synchronous segment. -/
def mdeliver (g : Graph) (rt : ResTbl) (fuel : Nat) (st : TState) :
    MTask → Option (TState × Option MTask)
  | [] => none
  | ⟨u, _⟩ :: rest =>
    match alook g u with
    | none => none
    | some a => mrun g rt fuel (setSize st u a.2) (⟨u, a.1⟩ :: rest)

/-- Launch every entry in order (the synchronous part of
`specifiers.map(...)`), threading the shared state. -/
def machineStart (rt : ResTbl) (base : String) :
    List String → TState → Option (TState × List (Option MTask))
  | [], st => some (st, [])
  | e :: es, st =>
    match mstart rt base st e with
    | none => none
    | some (st, t) =>
      match machineStart rt base es st with
      | none => none
      | some (st', ts) => some (st', t :: ts)

/-- Deliver the next settled `analyze` promise to task `i`. -/
def machineStepTask (g : Graph) (rt : ResTbl) (fuel : Nat)
    (mc : TState × List (Option MTask)) (i : Nat) :
    Option (TState × List (Option MTask)) :=
  match mc.2.get? i with
  | some (some task) =>
    (mdeliver g rt fuel mc.1 task).map (fun r => (r.1, mc.2.set i r.2))
  | _ => none

/-- Run `trace(entries)` under an explicit settlement schedule: launch
all entries, then deliver `analyze` results in the scheduled task
order. -/
def machineRun (g : Graph) (rt : ResTbl) (fuel : Nat) (base : String)
    (entries : List String) (schedule : List Nat) :
    Option (TState × List (Option MTask)) :=
  match machineStart rt base entries ⟨[], [], 0⟩ with
  | none => none
  | some mc => schedule.foldlM (machineStepTask g rt fuel) mc

/-! ### Reachability in a trace result -/

/-- The traced dependency edges out of `u` (non-`null` entries of
`trace[u].deps`). -/
def succsOf (t : List (String × TEntry)) (u : String) : List String :=
  match alook t u with
  | some e => e.deps.filterMap (·.2)
  | none => []

/-- One saturation step of the successor relation. -/
def rstep (t : List (String × TEntry)) (S : List String) : List String :=
  S ++ ((S.map (succsOf t)).flatten.filter (fun v => !(S.contains v)))

/-- A path `u → ... → w` along traced (non-`null`) dependency edges: the
graph-theoretic notion of one node depending, transitively, on
another.  An edge from `u` to `v` is cyclic exactly when `PathP t v u`
holds. -/
inductive PathP (t : List (String × TEntry)) : String → String → Prop
  | refl (u : String) : PathP t u u
  | step {u v w : String} (d : String) (e : TEntry) :
      alook t u = some e → (d, some v) ∈ e.deps → PathP t v w → PathP t u w

/-! ## C3: invariants of the sequential traversal

Definitions used to state and prove the amended postorder claim:
the recorded order of a node, recorded edges, the graph's node set,
the fuel measure, trace-table evolution, the traversal invariant, and
well-formedness of the resolution table. -/

def ordOf (t : List (String × TEntry)) (u : String) : Option Nat :=
  match alook t u with
  | some e => e.order
  | none => none

def EdgeIn (t : List (String × TEntry)) (u v : String) : Prop :=
  ∃ e d, alook t u = some e ∧ (d, some v) ∈ e.deps

def gkeys (g : Graph) : List String := g.map Prod.fst

def missing (g : Graph) (st : TState) : Nat :=
  ((gkeys g).filter (fun u => (alook st.trace u).isNone)).length

def traceLE (t t' : List (String × TEntry)) : Prop :=
  ∀ u e, alook t u = some e → ∃ e', alook t' u = some e' ∧
    (∀ p, p ∈ e.deps → p ∈ e'.deps) ∧ (∀ o, e.order = some o → e'.order = some o)

structure TInv (rt : ResTbl) (g : Graph) (st : TState) (stack : List String) : Prop where
  openStack : ∀ u, u ∈ stack → ∃ e, alook st.trace u = some e ∧ e.order = none
  closedOff : ∀ u e, alook st.trace u = some e → e.order = none → u ∈ stack
  chainEdges : List.Chain' (fun a b => EdgeIn st.trace b a) stack
  orderLt : ∀ u e o, alook st.trace u = some e → e.order = some o → o < st.post
  postOrd : ∀ u e d v, alook st.trace u = some e → (d, some v) ∈ e.deps →
    e.order.isSome = true →
    (∃ ov ou, ordOf st.trace v = some ov ∧ e.order = some ou ∧ ov < ou) ∨
      PathP st.trace v u
  detEdges : ∀ u e d r, alook st.trace u = some e → (d, r) ∈ e.deps →
    rlook rt d u = some r
  keysG : ∀ u e, alook st.trace u = some e → u ∈ gkeys g

def CurOK (parent : String) (cur : Cur) (stack : List String) : Prop :=
  match cur with
  | .top => stack = []
  | .node u => stack.head? = some u ∧ parent = u

def DepsOK (st st' : TState) (w : String) : Prop :=
  ∀ e0 e', alook st.trace w = some e0 → alook st'.trace w = some e' →
    ∀ p, p ∈ e'.deps → p ∈ e0.deps ∨ ∀ v, p.2 = some v → (alook st'.trace v).isSome = true

def rtWf (g : Graph) (rt : ResTbl) : Bool :=
  rt.all (fun pr => match pr.2.2 with
    | some u => decide (u ∈ gkeys g)
    | none => true)

/-! ## The heap model of `deepClone`

The `map` getter returns `deepClone(this._map)`.  To state that mutating
the returned snapshot never changes the internal map, JS aliasing is made
explicit: a heap is a list of allocated objects (the address is the list
index, allocation appends), a JS value is a primitive or a reference,
and `deepClone` is translated from the utility module, dispatching on
`Array.isArray(val)` / `typeof val === 'object' && val !== null`. -/

inductive JSVal where
  | nullv
  | str (s : String)
  | ref (a : Nat)
deriving DecidableEq, Repr

inductive JSObj where
  | objv (fields : List (String × JSVal))
  | arrv (elems : List JSVal)
deriving DecidableEq, Repr

abbrev Heap := List JSObj

mutual
/-- `deepClone(obj)` on the object at address `a`: clone every field,
then allocate the fresh result object. -/
def deepCloneAt (h : Heap) : Nat → Nat → Option (Heap × Nat)
  | 0, _ => none
  | fuel + 1, a =>
    match h.get? a with
    | some (.objv fields) =>
      match deepCloneFields h fuel fields with
      | none => none
      | some r => some (r.1 ++ [.objv r.2], r.1.length)
    | _ => none
termination_by fuel _ => (fuel, 0)

/-- The `for (const p of Object.keys(obj))` loop of `deepClone`: an array
value is copied shallowly (`[...val]`, a fresh array with the same
elements), an object value is cloned recursively, a primitive (or
`null`) is copied as is. -/
def deepCloneFields (h : Heap) : Nat → List (String × JSVal) →
    Option (Heap × List (String × JSVal))
  | _, [] => some (h, [])
  | fuel, (p, v) :: rest =>
    match v with
    | .ref a =>
      match h.get? a with
      | some (.arrv xs) =>
        match deepCloneFields (h ++ [.arrv xs]) fuel rest with
        | none => none
        | some r => some (r.1, (p, .ref h.length) :: r.2)
      | some (.objv _) =>
        match deepCloneAt h fuel a with
        | none => none
        | some r =>
          match deepCloneFields r.1 fuel rest with
          | none => none
          | some r2 => some (r2.1, (p, .ref r.2) :: r2.2)
      | none => none
    | _ =>
      match deepCloneFields h fuel rest with
      | none => none
      | some r => some (r.1, (p, v) :: r.2)
termination_by fuel fields => (fuel, fields.length + 1)
end

/-- Map a fallible reader over a list, failing when any element fails
(a structural-recursion `mapM` for `Option`). -/
def omap {α β : Type} (f : α → Option β) : List α → Option (List β)
  | [] => some []
  | x :: r =>
    match f x, omap f r with
    | some y, some ys => some (y :: ys)
    | _, _ => none

/-- Reader for one field of an inner mapping: a string or `null` value. -/
def innerField (p : String × JSVal) : Option (String × Option String) :=
  match p.2 with
  | .str s => some (p.1, some s)
  | .nullv => some (p.1, none)
  | .ref _ => none

/-- Read an inner mapping object (an `imports` table or one scope's
table): every field must be a string or `null`. -/
def readInner (h : Heap) (a : Nat) : Option (List (String × Option String)) :=
  match h.get? a with
  | some (.objv fs) => omap innerField fs
  | _ => none

/-- Reader for one field of the `scopes` object: a reference to an inner
mapping. -/
def scopeField (h : Heap) (p : String × JSVal) :
    Option (String × List (String × Option String)) :=
  match p.2 with
  | .ref b => (readInner h b).map (fun tbl => (p.1, tbl))
  | _ => none

/-- Read the `scopes` object: every field references an inner mapping. -/
def readScopes (h : Heap) (a : Nat) : Option (List (String × List (String × Option String))) :=
  match h.get? a with
  | some (.objv fs) => omap (scopeField h) fs
  | _ => none

/-- Reader for one element of a `depcache` array: a string. -/
def strElem (x : JSVal) : Option String :=
  match x with
  | .str s => some s
  | _ => none

/-- Reader for one field of the `depcache` object: a reference to an
array of strings. -/
def depField (h : Heap) (p : String × JSVal) : Option (String × List String) :=
  match p.2 with
  | .ref b =>
    match h.get? b with
    | some (.arrv xs) => (omap strElem xs).map (fun l => (p.1, l))
    | _ => none
  | _ => none

/-- Read the `depcache` object: every field references an array of
strings. -/
def readDep (h : Heap) (a : Nat) : Option (List (String × List String)) :=
  match h.get? a with
  | some (.objv fs) => omap (depField h) fs
  | _ => none

/-- Read a whole `ImportMap` value from the heap: the object at `a` must
have exactly the fields `imports`, `scopes`, `depcache`, in the order
the `TraceMap` constructor creates them. -/
def readMap (h : Heap) (a : Nat) : Option MapModel :=
  match h.get? a with
  | some (.objv [("imports", .ref i), ("scopes", .ref s), ("depcache", .ref d)]) =>
    match readInner h i, readScopes h s, readDep h d with
    | some imp, some scs, some dc => some ⟨imp, scs, dc⟩
    | _, _, _ => none
  | _ => none

/-- The addresses a reader of the value at `a` can mutate: `a` itself and
every address reachable from it through references (computed to a fixed
depth, enough for the three-level `ImportMap` shape). -/
def valAddrs (h : Heap) : Nat → Nat → List Nat
  | 0, a => [a]
  | fuel + 1, a =>
    a :: (match h.get? a with
      | some (.objv fs) => fs.flatMap (fun p =>
          match p.2 with
          | .ref b => valAddrs h fuel b
          | _ => [])
      | some (.arrv xs) => xs.flatMap (fun x =>
          match x with
          | .ref b => valAddrs h fuel b
          | _ => [])
      | none => [])

/-- JS mutation of the object at address `b` (e.g. `snapshot.imports.x =
...` rewrites the object `snapshot.imports` refers to). -/
def heapSet (h : Heap) (b : Nat) (o : JSObj) : Heap := h.set b o

/-! ## Concrete instances used by the evaluation theorems -/

/-- An ambient environment base (`envBaseUrl` of the utility module). -/
def envBase0 : Url := parseAbs "file:///root/proj/"

def siteBase : Url := parseAbs "https://site/"

def baseA : Url := parseAbs "https://site/a/"

def baseApp : Url := parseAbs "https://site/app/"

/-- A map with a single scope entry, for the rebase scope defect. -/
def rebaseScopeM0 : MapModel := ⟨[], [("https://site/", [("x", some "./x.js")])], []⟩

/-- A map with a single imports entry, for the rebase round trip. -/
def rebaseM0 : MapModel := ⟨[("x", some "./x.js")], [], []⟩

/-- A map with a single hoistable scope, for flatten idempotence. -/
def flatM0 : MapModel := ⟨[], [("https://site/sub/", [("a", some "./a.js")])], []⟩

/-- A map whose `imports` entry is present but `null`. -/
def nullEntryMap : MapModel := ⟨[("a", none)], [], []⟩

/-- Pool scenario: caller 1 acquires the slot. -/
def poolS1 : PoolSt × Bool := poolJob 1 1 poolInit

/-- Pool scenario: caller 2 queues behind caller 1. -/
def poolS2 : PoolSt × Bool := poolJob 1 2 poolS1.1

/-- Pool scenario: caller 1's operation settles and its `finally` runs
`next()`. -/
def poolS3 : PoolSt := poolNext poolS2.1

/-- The module graph of the trace interleaving: `X → Z`, `Y → X`,
`Z` a leaf. -/
def traceG : Graph := [("X", (["z"], 10)), ("Y", (["x"], 20)), ("Z", ([], 30))]

/-- Its resolution table: entry specifiers `x`, `y` from the base `B`,
dependency specifiers from their referrers. -/
def traceRT : ResTbl :=
  [("x", "B", some "X"), ("y", "B", some "Y"), ("z", "X", some "Z"), ("x", "Y", some "X")]

/-- The final shared state of the interleaved run in which `analyze(Y)`
settles before `analyze(X)`. -/
def traceCexSt : TState :=
  ⟨[("x", some "X"), ("y", some "Y")],
   [("X", ⟨[("z", some "Z")], some 10, some 2⟩),
    ("Y", ⟨[("x", some "X")], some 20, some 0⟩),
    ("Z", ⟨[], some 30, some 1⟩)], 3⟩

/-- A map with a single truthy entry, for the uninstall witness. -/
def c9m : MapModel := ⟨[("a", some "./a.js"), ("b", some "./b.js")], [], []⟩

/-- A map with both a scope entry and a top-level entry for `x`. -/
def c4m : MapModel :=
  ⟨[("x", some "./x.js")], [("./sub/", [("x", some "./sub/x.js")])], []⟩

/-- A referrer inside the `./sub/` scope. -/
def subUrl : Url := parseAbs "https://site/sub/page.js"

/-- A referrer outside the `./sub/` scope. -/
def outUrl : Url := parseAbs "https://site/other/page.js"

/-- Two scopes, the inner `./sub/` shadowing the origin root `/`. -/
def c5scopes : List (String × List (String × Option String)) :=
  [("./sub/", [("x", some "./sub/x.js")]), ("/", [("x", some "./root/x.js")])]

/-- A concrete heap holding an `ImportMap` value at address 5. -/
def c10heap : Heap :=
  [JSObj.objv [("a", JSVal.str "./a.js")],
   JSObj.objv [("x", JSVal.str "./x.js")],
   JSObj.objv [("https://site/", JSVal.ref 1)],
   JSObj.arrv [JSVal.str "./d.js"],
   JSObj.objv [("./m.js", JSVal.ref 3)],
   JSObj.objv [("imports", JSVal.ref 0), ("scopes", JSVal.ref 2), ("depcache", JSVal.ref 4)]]

/-- The map value `c10heap` holds at address 5. -/
def c10map : MapModel :=
  ⟨[("a", some "./a.js")], [("https://site/", [("x", some "./x.js")])],
   [("./m.js", ["./d.js"])]⟩

/-! # Theorems -/

/-! ## Helper lemmas -/

theorem poolStep_woken (n : Int) (s : PoolSt) (e : PEv) : (poolStep n s e).woken = s.woken := by
  cases e with
  | job caller =>
    simp only [poolStep, poolJob]
    split <;> rfl
  | next =>
    simp only [poolStep, poolNext]
    cases s.q.getLast? <;> rfl

theorem poolRun_woken (n : Int) (evs : List PEv) :
    ∀ s : PoolSt, (poolRun n evs s).woken = s.woken := by
  induction evs with
  | nil => intro s; rfl
  | cons e r ih =>
    intro s
    show (poolRun n r (poolStep n s e)).woken = s.woken
    rw [ih, poolStep_woken]

/-! ## Claim C1 -/

/-- Claim C1: the claim is refuted by the code.  Two install-family
operations on one `TraceMap`: the first caller is granted the slot, the
second queues.  When the first settles its `finally` runs `next()`,
which pops the queued resolver but never invokes it
(`this.q.pop() || (() => {})` is an expression, not a call), so the
queued caller is discarded unwoken and — whatever pool events follow —
is never granted the slot: the queued call deadlocks. -/
theorem claim1_thm :
    poolS1.2 = true ∧
    poolS2.2 = false ∧ poolS2.1.q = [2] ∧
    poolS3.q = [] ∧ poolS3.woken = [] ∧
    ∀ evs : List PEv, 2 ∉ (poolRun 1 evs poolS3).woken := by
  refine ⟨rfl, rfl, rfl, rfl, rfl, ?_⟩
  intro evs
  rw [poolRun_woken]
  simp [poolS3, poolS2, poolS1, poolInit, poolJob, poolNext]

/-! ## Claim C2 -/

/-- Claim C2: the claim is refuted by the code.  Rebasing from
`https://site/app/` to `https://site/other/` leaves the scope's own
mapping untouched (so its entry's absolute resolution target changes
with the base), and instead writes the rebased value into the top-level
`imports` table, which the original map did not even contain. -/
theorem claim2_thm :
    (rebaseModel envBase0 baseApp rebaseScopeM0 "https://site/other/").2.scopes =
      rebaseScopeM0.scopes ∧
    hrefOf (newURL "./x.js" (rebaseModel envBase0 baseApp rebaseScopeM0 "https://site/other/").1) ≠
      hrefOf (newURL "./x.js" baseApp) ∧
    rebaseScopeM0.imports = [] ∧
    (alook (rebaseModel envBase0 baseApp rebaseScopeM0 "https://site/other/").2.imports "x").isSome
      = true := by
  refine ⟨by decide, by decide, by decide, by decide⟩

/-! ## Claim C6 -/

/-- Claim C6: the claim is refuted by the code.  Round trip
`https://site/a/` → `https://site/a/c/` → `https://site/a/` on a map
whose only entry is `"x" ↦ "./x.js"`: `_baseUrlRelative` emits one
`../` per element of `basePath.slice(cut).split('/')`, which counts the
empty fragment after the base pathname's trailing slash, so the first
rebase stores `"../../x.js"` and the entry's absolute target moves from
`https://site/a/x.js` to `https://site/x.js`. -/
theorem claim6_thm :
    (rebaseModel envBase0 (rebaseModel envBase0 baseA rebaseM0 "https://site/a/c/").1
        (rebaseModel envBase0 baseA rebaseM0 "https://site/a/c/").2 "https://site/a/").1 = baseA ∧
    alook rebaseM0.imports "x" = some (some "./x.js") ∧
    alook (rebaseModel envBase0 (rebaseModel envBase0 baseA rebaseM0 "https://site/a/c/").1
        (rebaseModel envBase0 baseA rebaseM0 "https://site/a/c/").2 "https://site/a/").2.imports "x"
      = some (some "../../x.js") ∧
    hrefOf (newURL "../../x.js" baseA) ≠ hrefOf (newURL "./x.js" baseA) := by
  refine ⟨by decide, by decide, by decide, by decide⟩

/-! ## Claim C7 -/

/-- Claim C7: the claim is refuted by the code.  One flatten hoists the
scope `https://site/sub/` into a fresh origin-root scope `/`; a second
flatten processes `/` against itself (`scopeBase` and `scopeImports`
alias one object), so every hoist assigns and then deletes the same
key, and the whole `/` scope is erased: `flatten(flatten(m))` is not
deep-equal to `flatten(m)`. -/
theorem claim7_thm :
    flattenModel siteBase (flattenModel siteBase flatM0) ≠ flattenModel siteBase flatM0 ∧
    (flattenModel siteBase flatM0).scopes = [("/", [("a", some "a.js")])] ∧
    (flattenModel siteBase (flattenModel siteBase flatM0)).scopes = [] := by
  refine ⟨by decide, by decide, by decide⟩

/-! ## Claim C8 -/

/-- Claim C8 counterexample: `uninstall` and `upgrade` on one
currently-installed package each perform a deletion from the top-level
`imports` table before any acquisition of the gate, refuting the claim
that every mutating operation acquires the gate before touching the
tables. -/
theorem claim8_cex :
    mutGated (uninstallEvs 1 false) 0 = false ∧
    mutGated (upgradeEvs 1 false) 0 = false := by
  refine ⟨by decide, by decide⟩

/-- Claim C8, as amended: `traceInstall`, `lockInstall`, `install` and
`installEnv` acquire the gate before any mutation of the store tables
and release it on success and failure alike; `upgrade` and `uninstall`
release on every path too, but first delete their `imports` entries
with no gate held, the gate guarding only the delegated install. -/
theorem claim8_thm : ∀ (fails : Bool) (k : Nat),
    mutGated (traceInstallEvs fails) 0 = true ∧
    mutGated (lockInstallEvs fails) 0 = true ∧
    mutGated (installEvs fails) 0 = true ∧
    mutGated (installEnvEvs fails) 0 = true ∧
    balanced (traceInstallEvs fails) = true ∧
    balanced (lockInstallEvs fails) = true ∧
    balanced (installEvs fails) = true ∧
    balanced (installEnvEvs fails) = true ∧
    balanced (upgradeEvs k fails) = true ∧
    balanced (uninstallEvs k fails) = true := by
  intro fails k
  have hrep : ∀ l : List Ev, balanced (List.replicate k Ev.mutTab ++ l) = balanced l := by
    intro l
    simp [balanced, List.count_append, List.count_replicate]
  cases fails <;>
    simp [upgradeEvs, uninstallEvs, hrep] <;>
    refine ⟨by decide, by decide, by decide, by decide, by decide, by decide, by decide,
      by decide, by decide, by decide⟩

/-! ## Claim C9 (counterexample) -/

/-- Claim C9 counterexample: the package `a` is present as an entry of
the top-level `imports` table (with the `null` blocked-sentinel
target), yet both `uninstall(["a"])` and `upgrade(["a"])` fail with the
not-installed precondition error, because the source tests JS
truthiness (`!this._map.imports[pkg]`), not entry presence. -/
theorem claim9_cex :
    (alook nullEntryMap.imports "a").isSome = true ∧
    uninstallModel nullEntryMap ["a"] = .error (.notInstalled "a") ∧
    upgradeModel nullEntryMap ["a"] = .error (.notInstalled "a") := by
  refine ⟨by decide, by rfl, by rfl⟩

/-! ## Claim C3 (counterexample) -/

theorem mem_rstep_of_edge (t : List (String × TEntry)) (S : List String) {x y : String}
    (hx : x ∈ S) (e : TEntry) (hl : alook t x = some e) (d : String)
    (hm : (d, some y) ∈ e.deps) : y ∈ rstep t S := by
  by_cases hy : y ∈ S
  · exact List.mem_append_left _ hy
  · refine List.mem_append_right _ ?_
    refine List.mem_filter.mpr ⟨?_, ?_⟩
    · refine List.mem_flatten.mpr ⟨succsOf t x, List.mem_map_of_mem _ hx, ?_⟩
      simp only [succsOf, hl]
      exact List.mem_filterMap.mpr ⟨(d, some y), hm, rfl⟩
    · simpa using hy

theorem pathP_closed (t : List (String × TEntry)) (S : List String)
    (hS : rstep t S = S) : ∀ {v u : String}, PathP t v u → v ∈ S → u ∈ S := by
  intro v u hp
  induction hp with
  | refl w => exact fun h => h
  | step d e hl hm _ ih =>
    intro hv
    exact ih (hS ▸ mem_rstep_of_edge t S hv e hl d hm)

/-- Claim C3 counterexample: the claim is false for the concurrent entry
fan-out of `trace`.  Entries `x` and `y` resolve to `X` and `Y`; the
schedule in which `analyze(Y)` settles first lets `Y`'s branch hit `X`'s
placeholder (inserted by the still-suspended `x` branch) and finish
with order `0`, while `X` — a module `Y` depends on through a traced
edge that closes no cycle — finishes later with order `2`: the
dependency's order exceeds its dependent's. -/
theorem claim3_cex :
    machineRun traceG traceRT 20 "B" ["x", "y"] [1, 0, 0] = some (traceCexSt, [none, none]) ∧
    (∃ ex ey, alook traceCexSt.trace "X" = some ex ∧ alook traceCexSt.trace "Y" = some ey ∧
      ("x", some "X") ∈ ey.deps ∧ ex.order = some 2 ∧ ey.order = some 0) ∧
    ¬ PathP traceCexSt.trace "X" "Y" := by
  refine ⟨by rfl,
    ⟨⟨[("z", some "Z")], some 10, some 2⟩, ⟨[("x", some "X")], some 20, some 0⟩,
      by rfl, by rfl, by decide, by rfl, by rfl⟩, ?_⟩
  intro hp
  have h2 := pathP_closed traceCexSt.trace ["X", "Z"] (by decide) hp (by decide)
  exact absurd h2 (by decide)

/-! ## Claim C9 (amended) -/

theorem alook_cons {β : Type} (a : String × β) (t : List (String × β)) (p : String) :
    alook (a :: t) p = if a.1 = p then some a.2 else alook t p := by
  simp only [alook, List.find?_cons]
  by_cases h : a.1 = p <;> simp [h]

theorem aerase_cons {β : Type} (a : String × β) (t : List (String × β)) (k : String) :
    aerase (a :: t) k = if a.1 = k then aerase t k else a :: aerase t k := by
  simp only [aerase, List.filter_cons]
  by_cases h : a.1 = k <;> simp [h]

theorem alook_aerase {β : Type} (l : List (String × β)) (k p : String) :
    alook (aerase l k) p = if p = k then none else alook l p := by
  induction l with
  | nil => simp [alook, aerase]
  | cons a t ih =>
    rw [aerase_cons]
    by_cases hak : a.1 = k
    · rw [if_pos hak, ih, alook_cons]
      by_cases hpk : p = k
      · simp [hpk]
      · have hap : ¬ a.1 = p := fun h => hpk (h ▸ hak)
        simp [hpk, hap]
    · rw [if_neg hak, alook_cons, alook_cons, ih]
      by_cases hap : a.1 = p
      · have hpk : ¬ p = k := fun h => hak (hap.trans h)
        simp [hap, hpk]
      · simp [hap]

theorem alook_foldl_aerase_none (ps : List String) :
    ∀ (imp : List (String × Option String)) (k : String), alook imp k = none →
      alook (ps.foldl aerase imp) k = none := by
  induction ps with
  | nil => intro imp k h; exact h
  | cons a ps ih =>
    intro imp k h
    refine ih _ _ ?_
    rw [alook_aerase]
    by_cases hk : k = a <;> simp [hk, h]

theorem alook_foldl_aerase_mem (ps : List String) :
    ∀ (imp : List (String × Option String)) (p : String), p ∈ ps →
      alook (ps.foldl aerase imp) p = none := by
  induction ps with
  | nil => intro _ _ h; cases h
  | cons a ps ih =>
    intro imp p hp
    rw [List.foldl_cons]
    rcases List.mem_cons.mp hp with h | h
    · subst h
      apply alook_foldl_aerase_none
      rw [alook_aerase]
      simp
    · exact ih _ _ h

theorem removePkgs_ok (ps : List String) :
    ∀ imp, ps.Nodup → (∀ p ∈ ps, falsyTarget (alook imp p) = false) →
      removePkgs ps imp = .ok (ps.foldl aerase imp) := by
  induction ps with
  | nil => intro imp _ _; rfl
  | cons a ps ih =>
    intro imp hnd h
    have ha := h a (by simp)
    show (if falsyTarget (alook imp a) then Except.error (.notInstalled a)
      else removePkgs ps (aerase imp a)) = _
    rw [if_neg (by simp [ha])]
    refine ih _ (List.nodup_cons.mp hnd).2 ?_
    intro p hp
    have hpa : p ≠ a := by
      rintro rfl
      exact (List.nodup_cons.mp hnd).1 hp
    rw [alook_aerase, if_neg hpa]
    exact h p (by simp [hp])

theorem removePkgs_err (ps : List String) :
    ∀ imp, (∃ p ∈ ps, falsyTarget (alook imp p) = true) → ps.Nodup →
      ∃ p, removePkgs ps imp = .error (.notInstalled p) := by
  induction ps with
  | nil =>
    rintro imp ⟨p, hp, _⟩ _
    cases hp
  | cons a ps ih =>
    rintro imp ⟨p, hp, hf⟩ hnd
    by_cases ha : falsyTarget (alook imp a) = true
    · exact ⟨a, by simp [removePkgs, ha]⟩
    · rcases List.mem_cons.mp hp with rfl | hmem
      · exact absurd hf ha
      · have hpa : p ≠ a := by
          rintro rfl
          exact (List.nodup_cons.mp hnd).1 hmem
        obtain ⟨q, hq⟩ := ih (aerase imp a)
          ⟨p, hmem, by rw [alook_aerase, if_neg hpa]; exact hf⟩ (List.nodup_cons.mp hnd).2
        refine ⟨q, ?_⟩
        show (if falsyTarget (alook imp a) then Except.error (.notInstalled a)
          else removePkgs ps (aerase imp a)) = _
        rw [if_neg (by simp [ha])]
        exact hq

theorem removePkgs_err_falsy (ps : List String) :
    ∀ imp q, ps.Nodup → removePkgs ps imp = .error (.notInstalled q) →
      ∃ p ∈ ps, falsyTarget (alook imp p) = true := by
  induction ps with
  | nil =>
    intro imp q _ h
    exact absurd h (by simp [removePkgs])
  | cons a ps ih =>
    intro imp q hnd h
    by_cases ha : falsyTarget (alook imp a) = true
    · exact ⟨a, by simp, ha⟩
    · rw [show removePkgs (a :: ps) imp = (if falsyTarget (alook imp a) then
          Except.error (.notInstalled a) else removePkgs ps (aerase imp a)) from rfl,
        if_neg (by simp [ha])] at h
      obtain ⟨p, hp, hf⟩ := ih (aerase imp a) q (List.nodup_cons.mp hnd).2 h
      have hpa : p ≠ a := by
        rintro rfl
        exact (List.nodup_cons.mp hnd).1 hp
      rw [alook_aerase, if_neg hpa] at hf
      exact ⟨p, by simp [hp], hf⟩

/-- Claim C9, as amended: for a non-empty list of distinct package
names, `upgrade` and `uninstall` (which behave identically here) fail
with the not-installed precondition error exactly when some named
package's top-level `imports` entry is JS-falsy — absent, `null`, or
the empty string (a present-but-`null` entry therefore also fails,
which is what refutes the original claim); when every named entry is
truthy, no precondition error is raised and exactly the named entries
are deleted. -/
theorem claim9_thm (m : MapModel) (packages : List String)
    (hne : packages ≠ []) (hnd : packages.Nodup) :
    uninstallModel m packages = upgradeModel m packages ∧
    ((∃ p, uninstallModel m packages = .error (.notInstalled p)) ↔
      ∃ p ∈ packages, falsyTarget (alook m.imports p) = true) ∧
    ((∀ p ∈ packages, falsyTarget (alook m.imports p) = false) →
      uninstallModel m packages = .ok { m with imports := packages.foldl aerase m.imports } ∧
      ∀ p ∈ packages, alook (packages.foldl aerase m.imports) p = none) := by
  have hemp : packages.isEmpty = false := by
    cases packages with
    | nil => exact absurd rfl hne
    | cons a t => rfl
  refine ⟨by simp [uninstallModel, upgradeModel, hemp], ?_, ?_⟩
  · constructor
    · rintro ⟨p, hp⟩
      simp only [uninstallModel, hemp, Bool.false_eq_true, if_false] at hp
      cases hrp : removePkgs packages m.imports with
      | error e =>
        rw [hrp] at hp
        cases e with
        | noPackages => exact absurd hp (by simp [Except.map])
        | notInstalled q =>
          have : q = p := by
            simpa [Except.map] using hp
          exact removePkgs_err_falsy packages m.imports q hnd (this ▸ hrp)
      | ok v =>
        rw [hrp] at hp
        exact absurd hp (by simp [Except.map])
    · intro hex
      obtain ⟨p, hp⟩ := removePkgs_err packages m.imports hex hnd
      refine ⟨p, ?_⟩
      simp only [uninstallModel, hemp, Bool.false_eq_true, if_false, hp, Except.map]
  · intro h
    have hok := removePkgs_ok packages m.imports hnd h
    constructor
    · simp only [uninstallModel, hemp, Bool.false_eq_true, if_false, hok, Except.map]
    · intro p hp
      exact alook_foldl_aerase_mem packages m.imports p hp

/-- Claim C9 witness: the amended theorem applied to a concrete map with
truthy entries `a`, `b` and the package list `["a"]`. -/
theorem claim9_witness :
    uninstallModel c9m ["a"] = upgradeModel c9m ["a"] ∧
    ((∃ p, uninstallModel c9m ["a"] = .error (.notInstalled p)) ↔
      ∃ p ∈ ["a"], falsyTarget (alook c9m.imports p) = true) ∧
    ((∀ p ∈ ["a"], falsyTarget (alook c9m.imports p) = false) →
      uninstallModel c9m ["a"] = .ok { c9m with imports := (["a"] : List String).foldl aerase c9m.imports } ∧
      ∀ p ∈ ["a"], alook ((["a"] : List String).foldl aerase c9m.imports) p = none) :=
  claim9_thm c9m ["a"] (by decide) (by decide)

/-! ## Claim C4 -/

theorem gmm_foldl_aux (specifier : String) :
    ∀ (l : List (String × Option String)) (acc : Option String) (k : String),
      l.foldl (fun acc p =>
        if sEnds p.1 "/" && sStarts specifier p.1 &&
            (match acc with
             | none => true
             | some k0 => decide (sLen k0 < sLen p.1)) then
          some p.1
        else acc) acc = some k →
      acc = some k ∨ ∃ p ∈ l, p.1 = k := by
  intro l
  induction l with
  | nil => intro acc k h; exact Or.inl h
  | cons q l ih =>
    intro acc k h
    rw [List.foldl_cons] at h
    rcases ih _ k h with hacc | ⟨p, hp, hpk⟩
    · split at hacc
      · injection hacc with h2
        exact Or.inr ⟨q, by simp, h2⟩
      · exact Or.inl hacc
    · exact Or.inr ⟨p, by simp [hp], hpk⟩

theorem alook_isSome_of_key (l : List (String × Option String)) (k : String)
    (h : ∃ p ∈ l, p.1 = k) : (alook l k).isSome := by
  rcases h with ⟨p, hp, hpk⟩
  rw [alook]
  have hs : (List.find? (fun q : String × Option String => q.1 = k) l).isSome :=
    List.find?_isSome.mpr ⟨p, hp, by simp [hpk]⟩
  cases hf : List.find? (fun q : String × Option String => q.1 = k) l with
  | none =>
    rw [hf] at hs
    cases hs
  | some v => rfl

theorem getMapMatch_isSome_alook (specifier : String) (tbl : List (String × Option String))
    (k : String) (h : getMapMatch specifier tbl = some k) : (alook tbl k).isSome := by
  by_cases hex : (alook tbl specifier).isSome
  · rw [getMapMatch, if_pos hex] at h
    injection h with h2
    rw [← h2]
    exact hex
  · rw [getMapMatch, if_neg hex] at h
    rcases gmm_foldl_aux specifier tbl none k h with hn | hmem
    · cases hn
    · exact alook_isSome_of_key tbl k hmem

theorem resolveScopeLoop_spec (specifier : String)
    (scopes : List (String × List (String × Option String))) (baseUrl : Url) :
    ∀ l : List String,
      (winScope specifier scopes l = none ∧
        resolveScopeLoop specifier scopes baseUrl l = none) ∨
      (∃ sc k, winScope specifier scopes l = some sc ∧
        getMapMatch specifier (scopeTbl scopes sc) = some k ∧
        resolveScopeLoop specifier scopes baseUrl l =
          some (matchDispatch baseUrl specifier (scopeTbl scopes sc) k)) := by
  intro l
  induction l with
  | nil => exact Or.inl ⟨rfl, rfl⟩
  | cons sc rest ih =>
    cases hm : getMapMatch specifier (scopeTbl scopes sc) with
    | some k =>
      refine Or.inr ⟨sc, k, ?_, hm, ?_⟩
      · simp [winScope, List.find?_cons, hm]
      · show (match getMapMatch specifier (scopeTbl scopes sc) with
          | some mapMatch =>
            match alook (scopeTbl scopes sc) mapMatch with
            | some none => some none
            | some (some target) =>
              some (some (newURL (target ++ sDropN specifier (sLen mapMatch)) baseUrl))
            | none => some none
          | none => resolveScopeLoop specifier scopes baseUrl rest) = _
        rw [hm]
        cases halk : alook (scopeTbl scopes sc) k with
        | none => simp [matchDispatch, halk]
        | some t => cases t <;> simp [matchDispatch, halk]
    | none =>
      have hws : winScope specifier scopes (sc :: rest) = winScope specifier scopes rest := by
        simp [winScope, List.find?_cons, hm]
      have hloop : resolveScopeLoop specifier scopes baseUrl (sc :: rest) =
          resolveScopeLoop specifier scopes baseUrl rest := by
        show (match getMapMatch specifier (scopeTbl scopes sc) with
          | some mapMatch =>
            match alook (scopeTbl scopes sc) mapMatch with
            | some none => some none
            | some (some target) =>
              some (some (newURL (target ++ sDropN specifier (sLen mapMatch)) baseUrl))
            | none => some none
          | none => resolveScopeLoop specifier scopes baseUrl rest) = _
        rw [hm]
      rw [hws, hloop]
      exact ih

theorem winScope_eq_none_iff (specifier : String)
    (scopes : List (String × List (String × Option String))) (l : List String) :
    winScope specifier scopes l = none ↔
      ∀ sc ∈ l, getMapMatch specifier (scopeTbl scopes sc) = none := by
  simp only [winScope, List.find?_eq_none]
  constructor
  · intro h sc hsc
    exact Option.not_isSome_iff_eq_none.mp (h sc hsc)
  · intro h sc hsc
    simp [h sc hsc]

/-- Claim C4: confirmed (with `getMapMatch`/`getScopeMatches` modelled
from the spec).  For a bare specifier, `resolve` has exactly three
outcomes: a `MODULE_NOT_FOUND` error carrying the specifier and the
referrer URL exactly when no candidate scope and no top-level `imports`
entry produces a match; `null` exactly when the winning matched entry's
target is the `null` blocked sentinel; and a concrete URL exactly when
the winning target is non-null. -/
theorem claim4_thm (specifier : String) (parentUrl : Url) (m : MapModel) (baseUrl : Url)
    (hp : isPlain specifier = true) :
    (resolveModel specifier parentUrl m baseUrl =
        .error ⟨specifier, hrefOf parentUrl, "MODULE_NOT_FOUND"⟩ ↔
      (∀ sc ∈ getScopeMatches parentUrl m.scopes baseUrl,
        getMapMatch specifier (scopeTbl m.scopes sc) = none) ∧
      getMapMatch specifier m.imports = none) ∧
    (∀ e, resolveModel specifier parentUrl m baseUrl = .error e →
      e = ⟨specifier, hrefOf parentUrl, "MODULE_NOT_FOUND"⟩) ∧
    (resolveModel specifier parentUrl m baseUrl = .ok none ↔
      winTarget specifier parentUrl m baseUrl = some none) ∧
    ((∃ u, resolveModel specifier parentUrl m baseUrl = .ok (some u)) ↔
      ∃ t, winTarget specifier parentUrl m baseUrl = some (some t)) := by
  have hres : resolveModel specifier parentUrl m baseUrl =
      match resolveScopeLoop specifier m.scopes baseUrl
        (getScopeMatches parentUrl m.scopes baseUrl) with
      | some r => .ok r
      | none =>
        match getMapMatch specifier m.imports with
        | some mapMatch =>
          match alook m.imports mapMatch with
          | some none => .ok none
          | some (some target) =>
            .ok (some (newURL (target ++ sDropN specifier (sLen mapMatch)) baseUrl))
          | none => .ok none
        | none => .error ⟨specifier, hrefOf parentUrl, "MODULE_NOT_FOUND"⟩ := by
    simp only [resolveModel, hp, Bool.not_true, Bool.false_eq_true, if_false]
  rcases resolveScopeLoop_spec specifier m.scopes baseUrl
      (getScopeMatches parentUrl m.scopes baseUrl) with ⟨hw, hl⟩ | ⟨sc, k, hw, hk, hl⟩
  · have hall := (winScope_eq_none_iff specifier m.scopes _).mp hw
    rcases Option.eq_none_or_eq_some (getMapMatch specifier m.imports) with hmi | ⟨k2, hmi⟩
    · have hres2 : resolveModel specifier parentUrl m baseUrl =
          .error ⟨specifier, hrefOf parentUrl, "MODULE_NOT_FOUND"⟩ := by
        rw [hres, hl, hmi]
      have hwt : winTarget specifier parentUrl m baseUrl = none := by
        simp only [winTarget, hw, hmi]
      refine ⟨⟨fun _ => ⟨hall, hmi⟩, fun _ => hres2⟩, ?_, ?_, ?_⟩
      · intro e he
        rw [hres2] at he
        injection he with h2
        exact h2.symm
      · constructor
        · intro h
          rw [hres2] at h
          exact Except.noConfusion h
        · intro h
          rw [hwt] at h
          cases h
      · constructor
        · rintro ⟨u, hu⟩
          rw [hres2] at hu
          exact Except.noConfusion hu
        · rintro ⟨t, ht⟩
          rw [hwt] at ht
          cases ht
    · have hiS := getMapMatch_isSome_alook specifier m.imports k2 hmi
      have hmine : ¬ ((∀ sc' ∈ getScopeMatches parentUrl m.scopes baseUrl,
          getMapMatch specifier (scopeTbl m.scopes sc') = none) ∧
          getMapMatch specifier m.imports = none) := by
        rintro ⟨_, hnone⟩
        rw [hmi] at hnone
        cases hnone
      rcases Option.eq_none_or_eq_some (alook m.imports k2) with halk | ⟨tv, halk⟩
      · rw [halk] at hiS
        cases hiS
      · have hwt : winTarget specifier parentUrl m baseUrl = some tv := by
          simp only [winTarget, hw, hmi, halk]
          rfl
        cases tv with
        | none =>
          have hres2 : resolveModel specifier parentUrl m baseUrl = .ok none := by
            rw [hres, hl, hmi]
            simp [halk]
          refine ⟨⟨?_, fun h => absurd h hmine⟩, ?_, ⟨fun _ => hwt, fun _ => hres2⟩, ⟨?_, ?_⟩⟩
          · intro h
            rw [hres2] at h
            exact Except.noConfusion h
          · intro e he
            rw [hres2] at he
            exact Except.noConfusion he
          · rintro ⟨u, hu⟩
            rw [hres2] at hu
            injection hu with h2
            cases h2
          · rintro ⟨t, ht⟩
            rw [hwt] at ht
            injection ht with h2
            cases h2
        | some target =>
          have hres2 : resolveModel specifier parentUrl m baseUrl =
              .ok (some (newURL (target ++ sDropN specifier (sLen k2)) baseUrl)) := by
            rw [hres, hl, hmi]
            simp [halk]
          refine ⟨⟨?_, fun h => absurd h hmine⟩, ?_, ⟨?_, ?_⟩,
            ⟨fun _ => ⟨target, hwt⟩, fun _ => ⟨_, hres2⟩⟩⟩
          · intro h
            rw [hres2] at h
            exact Except.noConfusion h
          · intro e he
            rw [hres2] at he
            exact Except.noConfusion he
          · intro h
            rw [hres2] at h
            injection h with h2
            cases h2
          · intro h
            rw [hwt] at h
            injection h with h2
            cases h2
  · have hscL : sc ∈ getScopeMatches parentUrl m.scopes baseUrl :=
      List.mem_of_find?_eq_some hw
    have hiS := getMapMatch_isSome_alook specifier (scopeTbl m.scopes sc) k hk
    have hnotall : ¬ ((∀ sc' ∈ getScopeMatches parentUrl m.scopes baseUrl,
        getMapMatch specifier (scopeTbl m.scopes sc') = none) ∧
        getMapMatch specifier m.imports = none) := by
      rintro ⟨hall, _⟩
      rw [hall sc hscL] at hk
      cases hk
    rcases Option.eq_none_or_eq_some (alook (scopeTbl m.scopes sc) k) with halk | ⟨tv, halk⟩
    · rw [halk] at hiS
      cases hiS
    · have hwt : winTarget specifier parentUrl m baseUrl = some tv := by
        simp only [winTarget, hw, hk, halk]
        rfl
      cases tv with
      | none =>
        have hres2 : resolveModel specifier parentUrl m baseUrl = .ok none := by
          rw [hres, hl]
          simp [matchDispatch, halk]
        refine ⟨⟨?_, fun h => absurd h hnotall⟩, ?_, ⟨fun _ => hwt, fun _ => hres2⟩, ⟨?_, ?_⟩⟩
        · intro h
          rw [hres2] at h
          exact Except.noConfusion h
        · intro e he
          rw [hres2] at he
          exact Except.noConfusion he
        · rintro ⟨u, hu⟩
          rw [hres2] at hu
          injection hu with h2
          cases h2
        · rintro ⟨t, ht⟩
          rw [hwt] at ht
          injection ht with h2
          cases h2
      | some target =>
        have hres2 : resolveModel specifier parentUrl m baseUrl =
            .ok (some (newURL (target ++ sDropN specifier (sLen k)) baseUrl)) := by
          rw [hres, hl]
          simp [matchDispatch, halk]
        refine ⟨⟨?_, fun h => absurd h hnotall⟩, ?_, ⟨?_, ?_⟩,
          ⟨fun _ => ⟨target, hwt⟩, fun _ => ⟨_, hres2⟩⟩⟩
        · intro h
          rw [hres2] at h
          exact Except.noConfusion h
        · intro e he
          rw [hres2] at he
          exact Except.noConfusion he
        · intro h
          rw [hres2] at h
          injection h with h2
          cases h2
        · intro h
          rw [hwt] at h
          injection h with h2
          cases h2

/-- Claim C4 witness: the trichotomy at a concrete bare specifier,
referrer, map and base. -/
theorem claim4_witness :
    (resolveModel "x" subUrl c4m siteBase =
        .error ⟨"x", hrefOf subUrl, "MODULE_NOT_FOUND"⟩ ↔
      (∀ sc ∈ getScopeMatches subUrl c4m.scopes siteBase,
        getMapMatch "x" (scopeTbl c4m.scopes sc) = none) ∧
      getMapMatch "x" c4m.imports = none) ∧
    (∀ e, resolveModel "x" subUrl c4m siteBase = .error e →
      e = ⟨"x", hrefOf subUrl, "MODULE_NOT_FOUND"⟩) ∧
    (resolveModel "x" subUrl c4m siteBase = .ok none ↔
      winTarget "x" subUrl c4m siteBase = some none) ∧
    ((∃ u, resolveModel "x" subUrl c4m siteBase = .ok (some u)) ↔
      ∃ t, winTarget "x" subUrl c4m siteBase = some (some t)) :=
  claim4_thm "x" subUrl c4m siteBase (by decide)

/-! ## Claim C5 -/

theorem getScopeMatches_sorted (parentUrl : Url)
    (scopes : List (String × List (String × Option String))) (baseUrl : Url) :
    List.Sorted (fun a b => sLen (hrefOf (newURL b baseUrl)) ≤ sLen (hrefOf (newURL a baseUrl)))
      (getScopeMatches parentUrl scopes baseUrl) := by
  haveI : IsTotal String
      (fun a b => sLen (hrefOf (newURL b baseUrl)) ≤ sLen (hrefOf (newURL a baseUrl))) :=
    ⟨fun a b => Nat.le_total (sLen (hrefOf (newURL b baseUrl))) (sLen (hrefOf (newURL a baseUrl)))⟩
  haveI : IsTrans String
      (fun a b => sLen (hrefOf (newURL b baseUrl)) ≤ sLen (hrefOf (newURL a baseUrl))) :=
    ⟨fun _ _ _ hab hbc => Nat.le_trans hbc hab⟩
  simp only [getScopeMatches]
  exact List.sorted_insertionSort _ _

theorem getScopeMatches_nodup (parentUrl : Url)
    (scopes : List (String × List (String × Option String))) (baseUrl : Url)
    (h : (akeys scopes).Nodup) : (getScopeMatches parentUrl scopes baseUrl).Nodup := by
  simp only [getScopeMatches]
  exact ((List.perm_insertionSort _ _).nodup_iff).mpr (h.filter _)

theorem loop_first_longest (specifier : String)
    (scopes : List (String × List (String × Option String))) (baseUrl : Url) :
    ∀ l : List String, l.Nodup →
      List.Sorted (fun a b => sLen (hrefOf (newURL b baseUrl)) ≤ sLen (hrefOf (newURL a baseUrl))) l →
      ∀ sc k, sc ∈ l → getMapMatch specifier (scopeTbl scopes sc) = some k →
      (∀ sc' ∈ l, sc' ≠ sc → (getMapMatch specifier (scopeTbl scopes sc')).isSome →
        sLen (hrefOf (newURL sc' baseUrl)) < sLen (hrefOf (newURL sc baseUrl))) →
      resolveScopeLoop specifier scopes baseUrl l =
        some (matchDispatch baseUrl specifier (scopeTbl scopes sc) k) := by
  intro l
  induction l with
  | nil =>
    intro _ _ sc k h
    cases h
  | cons a rest ih =>
    intro hnd hsort sc k hmem hk hmax
    by_cases hasc : a = sc
    · subst hasc
      show (match getMapMatch specifier (scopeTbl scopes a) with
        | some mapMatch =>
          match alook (scopeTbl scopes a) mapMatch with
          | some none => some none
          | some (some target) =>
            some (some (newURL (target ++ sDropN specifier (sLen mapMatch)) baseUrl))
          | none => some none
        | none => resolveScopeLoop specifier scopes baseUrl rest) = _
      rw [hk]
      have hiS := getMapMatch_isSome_alook specifier (scopeTbl scopes a) k hk
      rcases Option.eq_none_or_eq_some (alook (scopeTbl scopes a) k) with halk | ⟨tv, halk⟩
      · rw [halk] at hiS
        cases hiS
      · cases tv <;> simp [matchDispatch, halk]
    · have hmem' : sc ∈ rest := by
        rcases List.mem_cons.mp hmem with h | h
        · exact absurd h.symm hasc
        · exact h
      have ham : getMapMatch specifier (scopeTbl scopes a) = none := by
        rcases Option.eq_none_or_eq_some (getMapMatch specifier (scopeTbl scopes a)) with h | ⟨k2, h⟩
        · exact h
        · exfalso
          have hlt := hmax a (by simp) hasc (by simp [h])
          have hge : sLen (hrefOf (newURL sc baseUrl)) ≤ sLen (hrefOf (newURL a baseUrl)) :=
            (List.sorted_cons.mp hsort).1 sc hmem'
          exact Nat.lt_irrefl _ (Nat.lt_of_lt_of_le hlt hge)
      show (match getMapMatch specifier (scopeTbl scopes a) with
        | some mapMatch =>
          match alook (scopeTbl scopes a) mapMatch with
          | some none => some none
          | some (some target) =>
            some (some (newURL (target ++ sDropN specifier (sLen mapMatch)) baseUrl))
          | none => some none
        | none => resolveScopeLoop specifier scopes baseUrl rest) = _
      rw [ham]
      exact ih (List.nodup_cons.mp hnd).2 (List.sorted_cons.mp hsort).2 sc k hmem' hk
        (fun sc' h' hne hs => hmax sc' (by simp [h']) hne hs)

/-- Claim C5: confirmed (with `getMapMatch`/`getScopeMatches` modelled
from the spec).  When candidate scopes have distinct keys and `sc` is
the strictly longest-prefix candidate producing any match for the bare
specifier, the first-match scope determines the result of `resolve` —
even when its target is the `null` sentinel, which `matchDispatch`
sends to the blocked outcome — and the result does not depend on the
top-level `imports` table at all (it is the same for every `imports`
value): the top-level table is only consulted when no scope matched. -/
theorem claim5_thm (specifier : String) (parentUrl baseUrl : Url)
    (scopes : List (String × List (String × Option String)))
    (hp : isPlain specifier = true)
    (hnd : (akeys scopes).Nodup)
    (sc k : String)
    (hsc : sc ∈ getScopeMatches parentUrl scopes baseUrl)
    (hk : getMapMatch specifier (scopeTbl scopes sc) = some k)
    (hmax : ∀ sc' ∈ getScopeMatches parentUrl scopes baseUrl, sc' ≠ sc →
      (getMapMatch specifier (scopeTbl scopes sc')).isSome →
      sLen (hrefOf (newURL sc' baseUrl)) < sLen (hrefOf (newURL sc baseUrl))) :
    ∀ (imports : List (String × Option String)) (dc : List (String × List String)),
      resolveModel specifier parentUrl ⟨imports, scopes, dc⟩ baseUrl =
        .ok (matchDispatch baseUrl specifier (scopeTbl scopes sc) k) := by
  intro imports dc
  have hloop := loop_first_longest specifier scopes baseUrl
    (getScopeMatches parentUrl scopes baseUrl)
    (getScopeMatches_nodup parentUrl scopes baseUrl hnd)
    (getScopeMatches_sorted parentUrl scopes baseUrl) sc k hsc hk hmax
  simp only [resolveModel, hp, Bool.not_true, Bool.false_eq_true, if_false]
  rw [hloop]

/-- Claim C5 witness: referrer under `./sub/`; both the `./sub/` scope
and the `/` scope match `x`, and the longer `./sub/` scope wins for a
concrete `imports` table mapping `x` elsewhere. -/
theorem claim5_witness :
    resolveModel "x" subUrl ⟨[("x", some "./x.js")], c5scopes, []⟩ siteBase =
      .ok (matchDispatch siteBase "x" (scopeTbl c5scopes "./sub/") "x") :=
  claim5_thm "x" subUrl siteBase c5scopes (by decide) (by decide) "./sub/" "x"
    (by decide) (by decide) (by decide) [("x", some "./x.js")] []

/-! ## Claim C10 -/

theorem omap_cons_some {α β : Type} (f : α → Option β) (x : α) (r : List α) (v : List β)
    (h : omap f (x :: r) = some v) :
    ∃ y ys, f x = some y ∧ omap f r = some ys ∧ v = y :: ys := by
  rw [show omap f (x :: r) = (match f x, omap f r with
    | some y, some ys => some (y :: ys)
    | _, _ => none) from rfl] at h
  cases hfx : f x with
  | none =>
    rw [hfx] at h
    cases hor : omap f r <;> rw [hor] at h <;> cases h
  | some y =>
    rw [hfx] at h
    cases hor : omap f r with
    | none =>
      rw [hor] at h
      cases h
    | some ys =>
      rw [hor] at h
      exact ⟨y, ys, rfl, rfl, (Option.some.inj h).symm⟩

theorem omap_cons_eq {α β : Type} (f : α → Option β) (x : α) (r : List α) (y : β)
    (ys : List β) (hfx : f x = some y) (hor : omap f r = some ys) :
    omap f (x :: r) = some (y :: ys) := by
  rw [show omap f (x :: r) = (match f x, omap f r with
    | some y, some ys => some (y :: ys)
    | _, _ => none) from rfl, hfx, hor]

theorem omap_congr {α β : Type} (f g : α → Option β) :
    ∀ (l : List α) (v : List β), omap f l = some v →
      (∀ x ∈ l, ∀ y, f x = some y → g x = some y) → omap g l = some v := by
  intro l
  induction l with
  | nil =>
    intro v h _
    exact h
  | cons x r ih =>
    intro v h hc
    obtain ⟨y, ys, hfx, hor, rfl⟩ := omap_cons_some f x r v h
    exact omap_cons_eq g x r y ys (hc x (by simp) y hfx)
      (ih ys hor (fun z hz => hc z (by simp [hz])))

theorem omap_forall_some {α β : Type} (f : α → Option β) :
    ∀ (l : List α) (v : List β), omap f l = some v → ∀ x ∈ l, ∃ y, f x = some y := by
  intro l
  induction l with
  | nil =>
    intro v _ x hx
    cases hx
  | cons a r ih =>
    intro v h x hx
    obtain ⟨y, ys, hfx, hor, rfl⟩ := omap_cons_some f a r v h
    rcases List.mem_cons.mp hx with rfl | hx2
    · exact ⟨y, hfx⟩
    · exact ih ys hor x hx2

theorem get?_some_lt {h : Heap} {a : Nat} {o : JSObj} (hg : h.get? a = some o) :
    a < h.length := by
  by_contra hc
  rw [List.get?_eq_none.mpr (Nat.le_of_not_lt hc)] at hg
  cases hg

theorem readInner_agree (h H : Heap) (hag : ∀ i, i < h.length → H.get? i = h.get? i)
    (a : Nat) (v : List (String × Option String)) (hr : readInner h a = some v) :
    readInner H a = some v := by
  cases hga : h.get? a with
  | none =>
    rw [readInner, hga] at hr
    cases hr
  | some o =>
    have hH : H.get? a = some o := by rw [hag a (get?_some_lt hga), hga]
    cases o with
    | arrv xs =>
      rw [readInner, hga] at hr
      exact absurd hr (by simp)
    | objv fs =>
      rw [readInner, hga] at hr
      have hr2 : omap innerField fs = some v := hr
      show readInner H a = some v
      rw [readInner, hH]
      exact hr2

theorem readScopes_agree (h H : Heap) (hag : ∀ i, i < h.length → H.get? i = h.get? i)
    (a : Nat) (v : List (String × List (String × Option String)))
    (hr : readScopes h a = some v) : readScopes H a = some v := by
  cases hga : h.get? a with
  | none =>
    rw [readScopes, hga] at hr
    cases hr
  | some o =>
    have hH : H.get? a = some o := by rw [hag a (get?_some_lt hga), hga]
    cases o with
    | arrv xs =>
      rw [readScopes, hga] at hr
      exact absurd hr (by simp)
    | objv fs =>
      rw [readScopes, hga] at hr
      have hr2 : omap (scopeField h) fs = some v := hr
      have hr3 : omap (scopeField H) fs = some v := by
        refine omap_congr _ _ fs v hr2 ?_
        intro p _ y hy
        cases hpv : p.2 with
        | ref b =>
          simp only [scopeField, hpv] at hy ⊢
          cases hri : readInner h b with
          | none =>
            rw [hri] at hy
            cases hy
          | some tbl =>
            rw [hri] at hy
            rw [readInner_agree h H hag b tbl hri]
            exact hy
        | nullv => simp [scopeField, hpv] at hy
        | str s => simp [scopeField, hpv] at hy
      show readScopes H a = some v
      rw [readScopes, hH]
      exact hr3

theorem readDep_agree (h H : Heap) (hag : ∀ i, i < h.length → H.get? i = h.get? i)
    (a : Nat) (v : List (String × List String)) (hr : readDep h a = some v) :
    readDep H a = some v := by
  cases hga : h.get? a with
  | none =>
    rw [readDep, hga] at hr
    cases hr
  | some o =>
    have hH : H.get? a = some o := by rw [hag a (get?_some_lt hga), hga]
    cases o with
    | arrv xs =>
      rw [readDep, hga] at hr
      exact absurd hr (by simp)
    | objv fs =>
      rw [readDep, hga] at hr
      have hr2 : omap (depField h) fs = some v := hr
      have hr3 : omap (depField H) fs = some v := by
        refine omap_congr _ _ fs v hr2 ?_
        intro p _ y hy
        cases hpv : p.2 with
        | ref b =>
          simp only [depField, hpv] at hy ⊢
          cases hgb : h.get? b with
          | none =>
            rw [hgb] at hy
            cases hy
          | some ob =>
            rw [hgb] at hy
            rw [hag b (get?_some_lt hgb), hgb]
            exact hy
        | nullv => simp [depField, hpv] at hy
        | str s => simp [depField, hpv] at hy
      show readDep H a = some v
      rw [readDep, hH]
      exact hr3

theorem readMap_inv (h : Heap) (a : Nat) (M : MapModel) (hr : readMap h a = some M) :
    ∃ i s d,
      h.get? a = some (.objv [("imports", .ref i), ("scopes", .ref s), ("depcache", .ref d)]) ∧
      readInner h i = some M.imports ∧ readScopes h s = some M.scopes ∧
      readDep h d = some M.depcache := by
  rw [readMap] at hr
  split at hr
  · next i s d heq =>
    split at hr
    · next imp scs dc h1 h2 h3 =>
      injection hr with h4
      subst h4
      exact ⟨i, s, d, heq, h1, h2, h3⟩
    · next => cases hr
  · next => cases hr

theorem readMap_intro (h : Heap) (a : Nat) (i s d : Nat) (M : MapModel)
    (hget : h.get? a =
      some (.objv [("imports", .ref i), ("scopes", .ref s), ("depcache", .ref d)]))
    (h1 : readInner h i = some M.imports) (h2 : readScopes h s = some M.scopes)
    (h3 : readDep h d = some M.depcache) : readMap h a = some M := by
  rw [readMap, hget]
  show (match readInner h i, readScopes h s, readDep h d with
    | some imp, some scs, some dc => some (⟨imp, scs, dc⟩ : MapModel)
    | _, _, _ => none) = some M
  rw [h1, h2, h3]

theorem readMap_agree (h H : Heap) (hag : ∀ i, i < h.length → H.get? i = h.get? i)
    (a : Nat) (M : MapModel) (hr : readMap h a = some M) : readMap H a = some M := by
  obtain ⟨i, s, d, hget, h1, h2, h3⟩ := readMap_inv h a M hr
  exact readMap_intro H a i s d M
    (by rw [hag a (get?_some_lt hget)]; exact hget)
    (readInner_agree h H hag i _ h1)
    (readScopes_agree h H hag s _ h2)
    (readDep_agree h H hag d _ h3)

theorem agree_append (h ext : Heap) : ∀ i, i < h.length → (h ++ ext).get? i = h.get? i := by
  intro i hi
  rw [List.get?_eq_getElem?, List.get?_eq_getElem?, List.getElem?_append_left hi]

theorem agree_set (h ext : Heap) (b : Nat) (o : JSObj) (hb : h.length ≤ b) :
    ∀ i, i < h.length → ((h ++ ext).set b o).get? i = h.get? i := by
  intro i hi
  rw [List.get?_eq_getElem?, List.get?_eq_getElem?, List.getElem?_set_ne (by omega),
    List.getElem?_append_left hi]

theorem cloneFields_append (fuel : Nat)
    (hAt : ∀ h a h2 a2, deepCloneAt h fuel a = some (h2, a2) → ∃ ext, h2 = h ++ ext) :
    ∀ fs (h h2 : Heap) fs2, deepCloneFields h fuel fs = some (h2, fs2) →
      ∃ ext, h2 = h ++ ext := by
  intro fs
  induction fs with
  | nil =>
    intro h h2 fs2 hc
    simp only [deepCloneFields] at hc
    injection hc with h3
    injection h3 with ha hb
    exact ⟨[], by rw [← ha]; simp⟩
  | cons pv rest ih =>
    intro h h2 fs2 hc
    obtain ⟨p, v⟩ := pv
    cases v with
    | ref a =>
      simp only [deepCloneFields] at hc
      cases hga : h.get? a with
      | none =>
        simp only [hga] at hc
        cases hc
      | some o =>
        simp only [hga] at hc
        cases o with
        | arrv xs =>
          cases hrec : deepCloneFields (h ++ [JSObj.arrv xs]) fuel rest with
          | none =>
            simp only [hrec] at hc
            cases hc
          | some r =>
            simp only [hrec] at hc
            injection hc with h3
            injection h3 with ha hb
            obtain ⟨ext2, he⟩ := ih (h ++ [JSObj.arrv xs]) r.1 r.2 (by rw [hrec])
            refine ⟨[JSObj.arrv xs] ++ ext2, ?_⟩
            rw [← ha, he]
            simp
        | objv fs0 =>
          cases hat : deepCloneAt h fuel a with
          | none =>
            simp only [hat] at hc
            cases hc
          | some r1 =>
            simp only [hat] at hc
            cases hrec : deepCloneFields r1.1 fuel rest with
            | none =>
              simp only [hrec] at hc
              cases hc
            | some r2 =>
              simp only [hrec] at hc
              injection hc with h3
              injection h3 with ha hb
              obtain ⟨ext1, he1⟩ := hAt h a r1.1 r1.2 (by rw [hat])
              obtain ⟨ext2, he2⟩ := ih r1.1 r2.1 r2.2 (by rw [hrec])
              refine ⟨ext1 ++ ext2, ?_⟩
              rw [← ha, he2, he1]
              simp
    | nullv =>
      simp only [deepCloneFields] at hc
      cases hrec : deepCloneFields h fuel rest with
      | none =>
        simp only [hrec] at hc
        cases hc
      | some r =>
        simp only [hrec] at hc
        injection hc with h3
        injection h3 with ha hb
        obtain ⟨ext2, he⟩ := ih h r.1 r.2 (by rw [hrec])
        exact ⟨ext2, by rw [← ha]; exact he⟩
    | str s =>
      simp only [deepCloneFields] at hc
      cases hrec : deepCloneFields h fuel rest with
      | none =>
        simp only [hrec] at hc
        cases hc
      | some r =>
        simp only [hrec] at hc
        injection hc with h3
        injection h3 with ha hb
        obtain ⟨ext2, he⟩ := ih h r.1 r.2 (by rw [hrec])
        exact ⟨ext2, by rw [← ha]; exact he⟩

theorem cloneAt_append : ∀ fuel (h : Heap) a (h2 : Heap) a2,
    deepCloneAt h fuel a = some (h2, a2) → ∃ ext, h2 = h ++ ext := by
  intro fuel
  induction fuel with
  | zero =>
    intro h a h2 a2 hc
    simp only [deepCloneAt] at hc
    cases hc
  | succ f ih =>
    intro h a h2 a2 hc
    simp only [deepCloneAt] at hc
    cases hga : h.get? a with
    | none =>
      simp only [hga] at hc
      cases hc
    | some o =>
      simp only [hga] at hc
      cases o with
      | arrv xs => cases hc
      | objv fields =>
        cases hrec : deepCloneFields h f fields with
        | none =>
          simp only [hrec] at hc
          cases hc
        | some r =>
          simp only [hrec] at hc
          injection hc with h3
          injection h3 with ha hb
          obtain ⟨ext, he⟩ := cloneFields_append f ih fields h r.1 r.2 (by rw [hrec])
          refine ⟨ext ++ [JSObj.objv r.2], ?_⟩
          rw [← ha, he]
          simp

theorem cloneFields_prim (fuel : Nat) :
    ∀ (fs : List (String × JSVal)) (h : Heap),
      (∀ p ∈ fs, ∀ b, p.2 ≠ JSVal.ref b) →
      deepCloneFields h fuel fs = some (h, fs) := by
  intro fs
  induction fs with
  | nil =>
    intro h _
    simp [deepCloneFields]
  | cons pv rest ih =>
    intro h hp
    obtain ⟨p, v⟩ := pv
    cases v with
    | ref b => exact absurd rfl (hp (p, .ref b) (by simp) b)
    | nullv =>
      simp only [deepCloneFields, ih h (fun q hq => hp q (by simp [hq]))]
    | str s =>
      simp only [deepCloneFields, ih h (fun q hq => hp q (by simp [hq]))]

theorem cloneAt_prim (h : Heap) (t : Nat) (fs : List (String × JSVal)) (fuel : Nat)
    (hg : h.get? t = some (.objv fs)) (hprim : ∀ p ∈ fs, ∀ b, p.2 ≠ JSVal.ref b) :
    deepCloneAt h (fuel + 1) t = some (h ++ [.objv fs], h.length) := by
  simp only [deepCloneAt, hg, cloneFields_prim fuel fs h hprim]

theorem readInner_prim (h : Heap) (a : Nat) (v : List (String × Option String))
    (hr : readInner h a = some v) :
    ∃ fs, h.get? a = some (.objv fs) ∧ omap innerField fs = some v ∧
      (∀ p ∈ fs, ∀ b, p.2 ≠ JSVal.ref b) := by
  cases hga : h.get? a with
  | none =>
    rw [readInner, hga] at hr
    cases hr
  | some o =>
    rw [readInner, hga] at hr
    cases o with
    | arrv xs => exact absurd hr (by simp)
    | objv fs =>
      have hr2 : omap innerField fs = some v := hr
      refine ⟨fs, rfl, hr2, ?_⟩
      intro p hp b hb
      obtain ⟨y, hy⟩ := omap_forall_some innerField fs v hr2 p hp
      rw [innerField, hb] at hy
      cases hy

theorem scopeField_mono (h ext : Heap) (q : String × JSVal) (y : String × List (String × Option String))
    (hy : scopeField h q = some y) : scopeField (h ++ ext) q = some y := by
  cases hqv : q.2 with
  | ref c =>
    simp only [scopeField, hqv] at hy ⊢
    cases hri : readInner h c with
    | none =>
      rw [hri] at hy
      cases hy
    | some t =>
      rw [hri] at hy
      rw [readInner_agree h (h ++ ext) (agree_append h ext) c t hri]
      exact hy
  | nullv => simp [scopeField, hqv] at hy
  | str s => simp [scopeField, hqv] at hy

theorem depField_mono (h ext : Heap) (q : String × JSVal) (y : String × List String)
    (hy : depField h q = some y) : depField (h ++ ext) q = some y := by
  cases hqv : q.2 with
  | ref c =>
    simp only [depField, hqv] at hy ⊢
    cases hgb : h.get? c with
    | none =>
      rw [hgb] at hy
      cases hy
    | some ob =>
      rw [hgb] at hy
      rw [agree_append h ext c (get?_some_lt hgb), hgb]
      exact hy
  | nullv => simp [depField, hqv] at hy
  | str s => simp [depField, hqv] at hy

theorem get?_append_first (h : Heap) (x : JSObj) (ext : Heap) :
    (h ++ x :: ext).get? h.length = some x := by
  rw [List.get?_eq_getElem?, List.getElem?_append_right (Nat.le_refl _)]
  simp

theorem cloneFields_scopes (f : Nat) :
    ∀ (fs : List (String × JSVal)) (h : Heap)
      (scs : List (String × List (String × Option String))),
      omap (scopeField h) fs = some scs →
      ∃ ext fs', deepCloneFields h (f + 1) fs = some (h ++ ext, fs') ∧
        omap (scopeField (h ++ ext)) fs' = some scs ∧
        (∀ p ∈ fs', ∃ b, p.2 = JSVal.ref b ∧ h.length ≤ b ∧
          ∃ fsb, (h ++ ext).get? b = some (JSObj.objv fsb) ∧
            (∀ q ∈ fsb, ∀ c, q.2 ≠ JSVal.ref c)) := by
  intro fs
  induction fs with
  | nil =>
    intro h scs hsc
    have hscs : scs = [] := by
      have : (some [] : Option (List (String × List (String × Option String)))) = some scs := hsc
      exact (Option.some.inj this).symm
    subst hscs
    exact ⟨[], [], by simp [deepCloneFields], rfl, by simp⟩
  | cons pv rest ih =>
    intro h scs hsc
    obtain ⟨y, ys, hfy, hor, rfl⟩ := omap_cons_some _ pv rest scs hsc
    obtain ⟨p, v⟩ := pv
    cases v with
    | nullv => simp [scopeField] at hfy
    | str s => simp [scopeField] at hfy
    | ref b =>
      simp only [scopeField] at hfy
      cases hri : readInner h b with
      | none =>
        rw [hri] at hfy
        cases hfy
      | some tbl =>
        rw [hri] at hfy
        have hy2 : y = (p, tbl) := by
          have : some (p, tbl) = some y := by simpa using hfy
          exact (Option.some.inj this).symm
        obtain ⟨fsb, hgb, homap, hprim⟩ := readInner_prim h b tbl hri
        have hat := cloneAt_prim h b fsb f hgb hprim
        have hor1 : omap (scopeField (h ++ [JSObj.objv fsb])) rest = some ys :=
          omap_congr _ _ rest ys hor
            (fun q _ y2 hy2 => scopeField_mono h [JSObj.objv fsb] q y2 hy2)
        obtain ⟨ext2, fs2', hrec, hsc2, hfresh2⟩ := ih (h ++ [JSObj.objv fsb]) ys hor1
        rw [List.append_assoc] at hrec hsc2
        simp only [List.singleton_append] at hrec hsc2
        refine ⟨JSObj.objv fsb :: ext2, (p, JSVal.ref h.length) :: fs2', ?_, ?_, ?_⟩
        · simp only [deepCloneFields, hgb, hat, hrec]
        · refine omap_cons_eq _ _ _ _ _ ?_ hsc2
          simp only [scopeField]
          have hg2 : (h ++ (JSObj.objv fsb :: ext2)).get? h.length =
              some (JSObj.objv fsb) := get?_append_first h (JSObj.objv fsb) ext2
          have hri2 : readInner (h ++ (JSObj.objv fsb :: ext2)) h.length = some tbl := by
            rw [readInner, hg2]
            exact homap
          rw [hri2, hy2]
          rfl
        · intro q hq
          rcases List.mem_cons.mp hq with rfl | hq2
          · exact ⟨h.length, rfl, Nat.le_refl _, fsb,
              get?_append_first h (JSObj.objv fsb) ext2, hprim⟩
          · obtain ⟨b2, hb2v, hb2ge, fsb2, hb2g, hb2p⟩ := hfresh2 q hq2
            rw [List.append_assoc] at hb2g
            simp only [List.singleton_append] at hb2g
            refine ⟨b2, hb2v, ?_, fsb2, hb2g, hb2p⟩
            calc h.length ≤ (h ++ [JSObj.objv fsb]).length := by simp
              _ ≤ b2 := hb2ge

theorem cloneFields_dep (fuel : Nat) :
    ∀ (fs : List (String × JSVal)) (h : Heap) (dc : List (String × List String)),
      omap (depField h) fs = some dc →
      ∃ ext fs', deepCloneFields h fuel fs = some (h ++ ext, fs') ∧
        omap (depField (h ++ ext)) fs' = some dc ∧
        (∀ p ∈ fs', ∃ b, p.2 = JSVal.ref b ∧ h.length ≤ b ∧
          ∃ xs, (h ++ ext).get? b = some (JSObj.arrv xs) ∧
            (∀ x ∈ xs, ∀ c, x ≠ JSVal.ref c)) := by
  intro fs
  induction fs with
  | nil =>
    intro h dc hdc
    have hdcs : dc = [] := by
      have : (some [] : Option (List (String × List String))) = some dc := hdc
      exact (Option.some.inj this).symm
    subst hdcs
    exact ⟨[], [], by simp [deepCloneFields], rfl, by simp⟩
  | cons pv rest ih =>
    intro h dc hdc
    obtain ⟨y, ys, hfy, hor, rfl⟩ := omap_cons_some _ pv rest dc hdc
    obtain ⟨p, v⟩ := pv
    cases v with
    | nullv => simp [depField] at hfy
    | str s => simp [depField] at hfy
    | ref b =>
      simp only [depField] at hfy
      cases hgb : h.get? b with
      | none =>
        simp only [hgb] at hfy
        cases hfy
      | some ob =>
        simp only [hgb] at hfy
        cases ob with
        | objv fs0 => exact absurd hfy (by simp)
        | arrv xs =>
          have hfy2 : Option.map (fun l => (p, l)) (omap strElem xs) = some y := hfy
          cases hol : omap strElem xs with
          | none =>
            rw [hol] at hfy2
            exact absurd hfy2 (by simp)
          | some l =>
            rw [hol] at hfy2
            have hy2 : y = (p, l) := by
              have : some (p, l) = some y := by simpa using hfy2
              exact (Option.some.inj this).symm
            have hstr : ∀ x ∈ xs, ∀ c, x ≠ JSVal.ref c := by
              intro x hx c hxc
              obtain ⟨y2, hy3⟩ := omap_forall_some strElem xs l hol x hx
              rw [hxc] at hy3
              simp [strElem] at hy3
            have hor1 : omap (depField (h ++ [JSObj.arrv xs])) rest = some ys :=
              omap_congr _ _ rest ys hor
                (fun q _ y2 hyq => depField_mono h [JSObj.arrv xs] q y2 hyq)
            obtain ⟨ext2, fs2', hrec, hdc2, hfresh2⟩ := ih (h ++ [JSObj.arrv xs]) ys hor1
            rw [List.append_assoc] at hrec hdc2
            simp only [List.singleton_append] at hrec hdc2
            refine ⟨JSObj.arrv xs :: ext2, (p, JSVal.ref h.length) :: fs2', ?_, ?_, ?_⟩
            · simp only [deepCloneFields, hgb, hrec]
            · refine omap_cons_eq _ _ _ _ _ ?_ hdc2
              simp only [depField]
              have hg2 : (h ++ (JSObj.arrv xs :: ext2)).get? h.length =
                  some (JSObj.arrv xs) := get?_append_first h (JSObj.arrv xs) ext2
              rw [hg2]
              show Option.map (fun l2 => (p, l2)) (omap strElem xs) = some y
              rw [hol, hy2]
              rfl
            · intro q hq
              rcases List.mem_cons.mp hq with rfl | hq2
              · exact ⟨h.length, rfl, Nat.le_refl _, xs,
                  get?_append_first h (JSObj.arrv xs) ext2, hstr⟩
              · obtain ⟨b2, hb2v, hb2ge, xs2, hb2g, hb2p⟩ := hfresh2 q hq2
                rw [List.append_assoc] at hb2g
                simp only [List.singleton_append] at hb2g
                refine ⟨b2, hb2v, ?_, xs2, hb2g, hb2p⟩
                calc h.length ≤ (h ++ [JSObj.arrv xs]).length := by simp
                  _ ≤ b2 := hb2ge

theorem readScopes_inv (h : Heap) (a : Nat) (v : List (String × List (String × Option String)))
    (hr : readScopes h a = some v) :
    ∃ fs, h.get? a = some (.objv fs) ∧ omap (scopeField h) fs = some v := by
  cases hga : h.get? a with
  | none =>
    rw [readScopes, hga] at hr
    cases hr
  | some o =>
    rw [readScopes, hga] at hr
    cases o with
    | arrv xs => exact absurd hr (by simp)
    | objv fs => exact ⟨fs, rfl, hr⟩

theorem readDep_inv (h : Heap) (a : Nat) (v : List (String × List String))
    (hr : readDep h a = some v) :
    ∃ fs, h.get? a = some (.objv fs) ∧ omap (depField h) fs = some v := by
  cases hga : h.get? a with
  | none =>
    rw [readDep, hga] at hr
    cases hr
  | some o =>
    rw [readDep, hga] at hr
    cases o with
    | arrv xs => exact absurd hr (by simp)
    | objv fs => exact ⟨fs, rfl, hr⟩

theorem get?_mono (h ext : Heap) (idx : Nat) (o : JSObj) (hg : h.get? idx = some o) :
    (h ++ ext).get? idx = some o := by
  rw [agree_append h ext idx (get?_some_lt hg)]
  exact hg

/-- Claim C10: confirmed.  For any heap holding an `ImportMap` value at
address `a`, `deepClone` succeeds, only extends the heap, and returns a
snapshot reading back as the same map value; the original still reads
back unchanged; every address reachable from the snapshot is freshly
allocated (at or beyond the original heap top); and overwriting any such
address with any object leaves the internal map — hence every
`resolve`/`trace`/`toString` computed from it — unchanged. -/
theorem claim10_thm (h : Heap) (a : Nat) (M : MapModel) (hr : readMap h a = some M) :
    ∃ hh aa, deepCloneAt h 3 a = some (hh, aa) ∧
      (∃ ext, hh = h ++ ext) ∧
      readMap hh aa = some M ∧
      readMap hh a = some M ∧
      (∀ x ∈ valAddrs hh 3 aa, h.length ≤ x) ∧
      (∀ x ∈ valAddrs hh 3 aa, ∀ o : JSObj, readMap (heapSet hh x o) a = some M) := by
  obtain ⟨i, s, d, hget, hrI, hrS, hrD⟩ := readMap_inv h a M hr
  obtain ⟨fs_i, hgi, homapI, hprimI⟩ := readInner_prim h i M.imports hrI
  obtain ⟨fs_s, hgs, homapS⟩ := readScopes_inv h s M.scopes hrS
  obtain ⟨fs_d, hgd, homapD⟩ := readDep_inv h d M.depcache hrD
  have hatI : deepCloneAt h 2 i = some (h ++ [JSObj.objv fs_i], h.length) :=
    cloneAt_prim h i fs_i 1 hgi hprimI
  have hgs1 : (h ++ [JSObj.objv fs_i]).get? s = some (JSObj.objv fs_s) :=
    get?_mono h [JSObj.objv fs_i] s _ hgs
  have homapS1 : omap (scopeField (h ++ [JSObj.objv fs_i])) fs_s = some M.scopes :=
    omap_congr _ _ fs_s M.scopes homapS (fun q _ y hy => scopeField_mono h _ q y hy)
  obtain ⟨extS, fsS', hrecS, hscS, hfreshS⟩ :=
    cloneFields_scopes 0 fs_s (h ++ [JSObj.objv fs_i]) M.scopes homapS1
  have hrecS1 : deepCloneFields (h ++ [JSObj.objv fs_i]) 1 fs_s = some (h ++ [JSObj.objv fs_i] ++ extS, fsS') := hrecS
  have hatS : deepCloneAt (h ++ [JSObj.objv fs_i]) 2 s = some (h ++ [JSObj.objv fs_i] ++ extS ++ [JSObj.objv fsS'], (h ++ [JSObj.objv fs_i] ++ extS).length) := by
    simp only [deepCloneAt, hgs1, hrecS1]
  have hgd2 : (h ++ [JSObj.objv fs_i] ++ extS ++ [JSObj.objv fsS']).get? d = some (JSObj.objv fs_d) :=
    get?_mono _ [JSObj.objv fsS'] d _ (get?_mono _ extS d _
      (get?_mono h [JSObj.objv fs_i] d _ hgd))
  have homapD2 : omap (depField (h ++ [JSObj.objv fs_i] ++ extS ++ [JSObj.objv fsS'])) fs_d = some M.depcache :=
    omap_congr _ _ fs_d M.depcache homapD (fun q _ y hy =>
      depField_mono _ [JSObj.objv fsS'] q y (depField_mono _ extS q y
        (depField_mono h [JSObj.objv fs_i] q y hy)))
  obtain ⟨extD, fsD', hrecD, hdcD, hfreshD⟩ :=
    cloneFields_dep 1 fs_d (h ++ [JSObj.objv fs_i] ++ extS ++ [JSObj.objv fsS']) M.depcache homapD2
  have hatD : deepCloneAt (h ++ [JSObj.objv fs_i] ++ extS ++ [JSObj.objv fsS']) 2 d = some (h ++ [JSObj.objv fs_i] ++ extS ++ [JSObj.objv fsS'] ++ extD ++ [JSObj.objv fsD'], (h ++ [JSObj.objv fs_i] ++ extS ++ [JSObj.objv fsS'] ++ extD).length) := by
    simp only [deepCloneAt, hgd2, hrecD]
  have hFroot : deepCloneFields h 2
      [("imports", JSVal.ref i), ("scopes", JSVal.ref s), ("depcache", JSVal.ref d)] =
      some (h ++ [JSObj.objv fs_i] ++ extS ++ [JSObj.objv fsS'] ++ extD ++ [JSObj.objv fsD'],
        [("imports", JSVal.ref h.length), ("scopes", JSVal.ref (h ++ [JSObj.objv fs_i] ++ extS).length),
         ("depcache", JSVal.ref (h ++ [JSObj.objv fs_i] ++ extS ++ [JSObj.objv fsS'] ++ extD).length)]) := by
    simp only [deepCloneFields, hgi, hatI, hgs1, hatS, hgd2, hatD]
  have hatRoot : deepCloneAt h 3 a = some (h ++ [JSObj.objv fs_i] ++ extS ++ [JSObj.objv fsS'] ++ extD ++ [JSObj.objv fsD'] ++ [JSObj.objv [("imports", JSVal.ref h.length), ("scopes", JSVal.ref (h ++ [JSObj.objv fs_i] ++ extS).length), ("depcache", JSVal.ref (h ++ [JSObj.objv fs_i] ++ extS ++ [JSObj.objv fsS'] ++ extD).length)]], (h ++ [JSObj.objv fs_i] ++ extS ++ [JSObj.objv fsS'] ++ extD ++ [JSObj.objv fsD']).length) := by
    simp only [deepCloneAt, hget, hFroot]
  have hga2 : (h ++ [JSObj.objv fs_i] ++ extS ++ [JSObj.objv fsS'] ++ extD ++ [JSObj.objv fsD'] ++ [JSObj.objv [("imports", JSVal.ref h.length), ("scopes", JSVal.ref (h ++ [JSObj.objv fs_i] ++ extS).length), ("depcache", JSVal.ref (h ++ [JSObj.objv fs_i] ++ extS ++ [JSObj.objv fsS'] ++ extD).length)]]).get? (h ++ [JSObj.objv fs_i] ++ extS ++ [JSObj.objv fsS'] ++ extD ++ [JSObj.objv fsD']).length = some (JSObj.objv [("imports", JSVal.ref h.length), ("scopes", JSVal.ref (h ++ [JSObj.objv fs_i] ++ extS).length), ("depcache", JSVal.ref (h ++ [JSObj.objv fs_i] ++ extS ++ [JSObj.objv fsS'] ++ extD).length)]) :=
    get?_append_first (h ++ [JSObj.objv fs_i] ++ extS ++ [JSObj.objv fsS'] ++ extD ++ [JSObj.objv fsD']) _ []
  have hb0 : (h ++ [JSObj.objv fs_i]).get? h.length = some (JSObj.objv fs_i) :=
    get?_append_first h (JSObj.objv fs_i) []
  have hgai2 : (h ++ [JSObj.objv fs_i] ++ extS ++ [JSObj.objv fsS'] ++ extD ++ [JSObj.objv fsD'] ++ [JSObj.objv [("imports", JSVal.ref h.length), ("scopes", JSVal.ref (h ++ [JSObj.objv fs_i] ++ extS).length), ("depcache", JSVal.ref (h ++ [JSObj.objv fs_i] ++ extS ++ [JSObj.objv fsS'] ++ extD).length)]]).get? h.length = some (JSObj.objv fs_i) :=
    get?_mono _ [JSObj.objv [("imports", JSVal.ref h.length), ("scopes", JSVal.ref (h ++ [JSObj.objv fs_i] ++ extS).length), ("depcache", JSVal.ref (h ++ [JSObj.objv fs_i] ++ extS ++ [JSObj.objv fsS'] ++ extD).length)]] _ _ (get?_mono _ [JSObj.objv fsD'] _ _
      (get?_mono _ extD _ _ (get?_mono _ [JSObj.objv fsS'] _ _
        (get?_mono _ extS _ _ hb0))))
  have hgas2 : (h ++ [JSObj.objv fs_i] ++ extS ++ [JSObj.objv fsS'] ++ extD ++ [JSObj.objv fsD'] ++ [JSObj.objv [("imports", JSVal.ref h.length), ("scopes", JSVal.ref (h ++ [JSObj.objv fs_i] ++ extS).length), ("depcache", JSVal.ref (h ++ [JSObj.objv fs_i] ++ extS ++ [JSObj.objv fsS'] ++ extD).length)]]).get? (h ++ [JSObj.objv fs_i] ++ extS).length = some (JSObj.objv fsS') :=
    get?_mono _ [JSObj.objv [("imports", JSVal.ref h.length), ("scopes", JSVal.ref (h ++ [JSObj.objv fs_i] ++ extS).length), ("depcache", JSVal.ref (h ++ [JSObj.objv fs_i] ++ extS ++ [JSObj.objv fsS'] ++ extD).length)]] _ _ (get?_mono _ [JSObj.objv fsD'] _ _
      (get?_mono _ extD _ _ (get?_append_first (h ++ [JSObj.objv fs_i] ++ extS) (JSObj.objv fsS') [])))
  have hgad2 : (h ++ [JSObj.objv fs_i] ++ extS ++ [JSObj.objv fsS'] ++ extD ++ [JSObj.objv fsD'] ++ [JSObj.objv [("imports", JSVal.ref h.length), ("scopes", JSVal.ref (h ++ [JSObj.objv fs_i] ++ extS).length), ("depcache", JSVal.ref (h ++ [JSObj.objv fs_i] ++ extS ++ [JSObj.objv fsS'] ++ extD).length)]]).get? (h ++ [JSObj.objv fs_i] ++ extS ++ [JSObj.objv fsS'] ++ extD).length = some (JSObj.objv fsD') :=
    get?_mono _ [JSObj.objv [("imports", JSVal.ref h.length), ("scopes", JSVal.ref (h ++ [JSObj.objv fs_i] ++ extS).length), ("depcache", JSVal.ref (h ++ [JSObj.objv fs_i] ++ extS ++ [JSObj.objv fsS'] ++ extD).length)]] _ _ (get?_append_first (h ++ [JSObj.objv fs_i] ++ extS ++ [JSObj.objv fsS'] ++ extD) (JSObj.objv fsD') [])
  have hri2 : readInner (h ++ [JSObj.objv fs_i] ++ extS ++ [JSObj.objv fsS'] ++ extD ++ [JSObj.objv fsD'] ++ [JSObj.objv [("imports", JSVal.ref h.length), ("scopes", JSVal.ref (h ++ [JSObj.objv fs_i] ++ extS).length), ("depcache", JSVal.ref (h ++ [JSObj.objv fs_i] ++ extS ++ [JSObj.objv fsS'] ++ extD).length)]]) h.length = some M.imports := by
    rw [readInner, hgai2]
    exact homapI
  have hscHP : omap (scopeField (h ++ [JSObj.objv fs_i] ++ extS ++ [JSObj.objv fsS'] ++ extD ++ [JSObj.objv fsD'] ++ [JSObj.objv [("imports", JSVal.ref h.length), ("scopes", JSVal.ref (h ++ [JSObj.objv fs_i] ++ extS).length), ("depcache", JSVal.ref (h ++ [JSObj.objv fs_i] ++ extS ++ [JSObj.objv fsS'] ++ extD).length)]])) fsS' = some M.scopes :=
    omap_congr _ _ fsS' M.scopes hscS (fun q _ y hy =>
      scopeField_mono _ [JSObj.objv [("imports", JSVal.ref h.length), ("scopes", JSVal.ref (h ++ [JSObj.objv fs_i] ++ extS).length), ("depcache", JSVal.ref (h ++ [JSObj.objv fs_i] ++ extS ++ [JSObj.objv fsS'] ++ extD).length)]] q y (scopeField_mono _ [JSObj.objv fsD'] q y
        (scopeField_mono _ extD q y (scopeField_mono _ [JSObj.objv fsS'] q y hy))))
  have hrs2 : readScopes (h ++ [JSObj.objv fs_i] ++ extS ++ [JSObj.objv fsS'] ++ extD ++ [JSObj.objv fsD'] ++ [JSObj.objv [("imports", JSVal.ref h.length), ("scopes", JSVal.ref (h ++ [JSObj.objv fs_i] ++ extS).length), ("depcache", JSVal.ref (h ++ [JSObj.objv fs_i] ++ extS ++ [JSObj.objv fsS'] ++ extD).length)]]) (h ++ [JSObj.objv fs_i] ++ extS).length = some M.scopes := by
    rw [readScopes, hgas2]
    exact hscHP
  have hdcHP : omap (depField (h ++ [JSObj.objv fs_i] ++ extS ++ [JSObj.objv fsS'] ++ extD ++ [JSObj.objv fsD'] ++ [JSObj.objv [("imports", JSVal.ref h.length), ("scopes", JSVal.ref (h ++ [JSObj.objv fs_i] ++ extS).length), ("depcache", JSVal.ref (h ++ [JSObj.objv fs_i] ++ extS ++ [JSObj.objv fsS'] ++ extD).length)]])) fsD' = some M.depcache :=
    omap_congr _ _ fsD' M.depcache hdcD (fun q _ y hy =>
      depField_mono _ [JSObj.objv [("imports", JSVal.ref h.length), ("scopes", JSVal.ref (h ++ [JSObj.objv fs_i] ++ extS).length), ("depcache", JSVal.ref (h ++ [JSObj.objv fs_i] ++ extS ++ [JSObj.objv fsS'] ++ extD).length)]] q y (depField_mono _ [JSObj.objv fsD'] q y hy))
  have hrd2 : readDep (h ++ [JSObj.objv fs_i] ++ extS ++ [JSObj.objv fsS'] ++ extD ++ [JSObj.objv fsD'] ++ [JSObj.objv [("imports", JSVal.ref h.length), ("scopes", JSVal.ref (h ++ [JSObj.objv fs_i] ++ extS).length), ("depcache", JSVal.ref (h ++ [JSObj.objv fs_i] ++ extS ++ [JSObj.objv fsS'] ++ extD).length)]]) (h ++ [JSObj.objv fs_i] ++ extS ++ [JSObj.objv fsS'] ++ extD).length = some M.depcache := by
    rw [readDep, hgad2]
    exact hdcHP
  have hmapClone : readMap (h ++ [JSObj.objv fs_i] ++ extS ++ [JSObj.objv fsS'] ++ extD ++ [JSObj.objv fsD'] ++ [JSObj.objv [("imports", JSVal.ref h.length), ("scopes", JSVal.ref (h ++ [JSObj.objv fs_i] ++ extS).length), ("depcache", JSVal.ref (h ++ [JSObj.objv fs_i] ++ extS ++ [JSObj.objv fsS'] ++ extD).length)]]) (h ++ [JSObj.objv fs_i] ++ extS ++ [JSObj.objv fsS'] ++ extD ++ [JSObj.objv fsD']).length = some M :=
    readMap_intro (h ++ [JSObj.objv fs_i] ++ extS ++ [JSObj.objv fsS'] ++ extD ++ [JSObj.objv fsD'] ++ [JSObj.objv [("imports", JSVal.ref h.length), ("scopes", JSVal.ref (h ++ [JSObj.objv fs_i] ++ extS).length), ("depcache", JSVal.ref (h ++ [JSObj.objv fs_i] ++ extS ++ [JSObj.objv fsS'] ++ extD).length)]]) ((h ++ [JSObj.objv fs_i] ++ extS ++ [JSObj.objv fsS'] ++ extD ++ [JSObj.objv fsD']).length) h.length ((h ++ [JSObj.objv fs_i] ++ extS).length) ((h ++ [JSObj.objv fs_i] ++ extS ++ [JSObj.objv fsS'] ++ extD).length) M
      hga2 hri2 hrs2 hrd2
  have hagree : ∀ j, j < h.length → (h ++ [JSObj.objv fs_i] ++ extS ++ [JSObj.objv fsS'] ++ extD ++ [JSObj.objv fsD'] ++ [JSObj.objv [("imports", JSVal.ref h.length), ("scopes", JSVal.ref (h ++ [JSObj.objv fs_i] ++ extS).length), ("depcache", JSVal.ref (h ++ [JSObj.objv fs_i] ++ extS ++ [JSObj.objv fsS'] ++ extD).length)]]).get? j = h.get? j := by
    intro j hj
    have l1 : j < (h ++ [JSObj.objv fs_i]).length := by
      simp only [List.length_append, List.length_cons, List.length_nil]
      omega
    have l2 : j < (h ++ [JSObj.objv fs_i] ++ extS).length := by
      simp only [List.length_append, List.length_cons, List.length_nil]
      omega
    have l3 : j < (h ++ [JSObj.objv fs_i] ++ extS ++ [JSObj.objv fsS']).length := by
      simp only [List.length_append, List.length_cons, List.length_nil]
      omega
    have l4 : j < (h ++ [JSObj.objv fs_i] ++ extS ++ [JSObj.objv fsS'] ++ extD).length := by
      simp only [List.length_append, List.length_cons, List.length_nil]
      omega
    have l5 : j < (h ++ [JSObj.objv fs_i] ++ extS ++ [JSObj.objv fsS'] ++ extD ++ [JSObj.objv fsD']).length := by
      simp only [List.length_append, List.length_cons, List.length_nil]
      omega
    rw [agree_append (h ++ [JSObj.objv fs_i] ++ extS ++ [JSObj.objv fsS'] ++ extD ++ [JSObj.objv fsD']) _ j l5, agree_append (h ++ [JSObj.objv fs_i] ++ extS ++ [JSObj.objv fsS'] ++ extD) _ j l4, agree_append (h ++ [JSObj.objv fs_i] ++ extS ++ [JSObj.objv fsS']) _ j l3,
      agree_append (h ++ [JSObj.objv fs_i] ++ extS) _ j l2, agree_append (h ++ [JSObj.objv fs_i]) _ j l1, agree_append h _ j hj]
  have hmapOrig : readMap (h ++ [JSObj.objv fs_i] ++ extS ++ [JSObj.objv fsS'] ++ extD ++ [JSObj.objv fsD'] ++ [JSObj.objv [("imports", JSVal.ref h.length), ("scopes", JSVal.ref (h ++ [JSObj.objv fs_i] ++ extS).length), ("depcache", JSVal.ref (h ++ [JSObj.objv fs_i] ++ extS ++ [JSObj.objv fsS'] ++ extD).length)]]) a = some M := readMap_agree h (h ++ [JSObj.objv fs_i] ++ extS ++ [JSObj.objv fsS'] ++ extD ++ [JSObj.objv fsD'] ++ [JSObj.objv [("imports", JSVal.ref h.length), ("scopes", JSVal.ref (h ++ [JSObj.objv fs_i] ++ extS).length), ("depcache", JSVal.ref (h ++ [JSObj.objv fs_i] ++ extS ++ [JSObj.objv fsS'] ++ extD).length)]]) hagree a M hr
  have hsubI : ∀ x ∈ valAddrs (h ++ [JSObj.objv fs_i] ++ extS ++ [JSObj.objv fsS'] ++ extD ++ [JSObj.objv fsD'] ++ [JSObj.objv [("imports", JSVal.ref h.length), ("scopes", JSVal.ref (h ++ [JSObj.objv fs_i] ++ extS).length), ("depcache", JSVal.ref (h ++ [JSObj.objv fs_i] ++ extS ++ [JSObj.objv fsS'] ++ extD).length)]]) 2 h.length, h.length ≤ x := by
    intro x hx
    simp only [valAddrs, hgai2] at hx
    rcases List.mem_cons.mp hx with rfl | hx2
    · exact Nat.le_refl _
    · exfalso
      obtain ⟨p, hp, hxp⟩ := List.mem_flatMap.mp hx2
      cases hpv : p.2 with
      | ref b => exact hprimI p hp b hpv
      | nullv => simp [hpv] at hxp
      | str s2 => simp [hpv] at hxp
  have hsubS : ∀ x ∈ valAddrs (h ++ [JSObj.objv fs_i] ++ extS ++ [JSObj.objv fsS'] ++ extD ++ [JSObj.objv fsD'] ++ [JSObj.objv [("imports", JSVal.ref h.length), ("scopes", JSVal.ref (h ++ [JSObj.objv fs_i] ++ extS).length), ("depcache", JSVal.ref (h ++ [JSObj.objv fs_i] ++ extS ++ [JSObj.objv fsS'] ++ extD).length)]]) 2 (h ++ [JSObj.objv fs_i] ++ extS).length, h.length ≤ x := by
    intro x hx
    simp only [valAddrs, hgas2] at hx
    rcases List.mem_cons.mp hx with rfl | hx2
    · simp only [List.length_append, List.length_cons, List.length_nil]
      omega
    · obtain ⟨p, hp, hxp⟩ := List.mem_flatMap.mp hx2
      obtain ⟨b, hbv, hbge, fsb, hbg, hbp⟩ := hfreshS p hp
      simp only [hbv] at hxp
      have hbgHP : (h ++ [JSObj.objv fs_i] ++ extS ++ [JSObj.objv fsS'] ++ extD ++ [JSObj.objv fsD'] ++ [JSObj.objv [("imports", JSVal.ref h.length), ("scopes", JSVal.ref (h ++ [JSObj.objv fs_i] ++ extS).length), ("depcache", JSVal.ref (h ++ [JSObj.objv fs_i] ++ extS ++ [JSObj.objv fsS'] ++ extD).length)]]).get? b = some (JSObj.objv fsb) :=
        get?_mono _ [JSObj.objv [("imports", JSVal.ref h.length), ("scopes", JSVal.ref (h ++ [JSObj.objv fs_i] ++ extS).length), ("depcache", JSVal.ref (h ++ [JSObj.objv fs_i] ++ extS ++ [JSObj.objv fsS'] ++ extD).length)]] _ _ (get?_mono _ [JSObj.objv fsD'] _ _
          (get?_mono _ extD _ _ (get?_mono _ [JSObj.objv fsS'] _ _ hbg)))
      simp only [valAddrs, hbgHP] at hxp
      rcases List.mem_cons.mp hxp with rfl | hxp2
      · have hge2 := hbge
        simp only [List.length_append, List.length_cons, List.length_nil] at hge2
        omega
      · exfalso
        obtain ⟨q, hq, hxq⟩ := List.mem_flatMap.mp hxp2
        cases hqv : q.2 with
        | ref c => exact hbp q hq c hqv
        | nullv => simp [hqv] at hxq
        | str s2 => simp [hqv] at hxq
  have hsubD : ∀ x ∈ valAddrs (h ++ [JSObj.objv fs_i] ++ extS ++ [JSObj.objv fsS'] ++ extD ++ [JSObj.objv fsD'] ++ [JSObj.objv [("imports", JSVal.ref h.length), ("scopes", JSVal.ref (h ++ [JSObj.objv fs_i] ++ extS).length), ("depcache", JSVal.ref (h ++ [JSObj.objv fs_i] ++ extS ++ [JSObj.objv fsS'] ++ extD).length)]]) 2 (h ++ [JSObj.objv fs_i] ++ extS ++ [JSObj.objv fsS'] ++ extD).length, h.length ≤ x := by
    intro x hx
    simp only [valAddrs, hgad2] at hx
    rcases List.mem_cons.mp hx with rfl | hx2
    · simp only [List.length_append, List.length_cons, List.length_nil]
      omega
    · obtain ⟨p, hp, hxp⟩ := List.mem_flatMap.mp hx2
      obtain ⟨b, hbv, hbge, xs, hbg, hbp⟩ := hfreshD p hp
      simp only [hbv] at hxp
      have hbgHP : (h ++ [JSObj.objv fs_i] ++ extS ++ [JSObj.objv fsS'] ++ extD ++ [JSObj.objv fsD'] ++ [JSObj.objv [("imports", JSVal.ref h.length), ("scopes", JSVal.ref (h ++ [JSObj.objv fs_i] ++ extS).length), ("depcache", JSVal.ref (h ++ [JSObj.objv fs_i] ++ extS ++ [JSObj.objv fsS'] ++ extD).length)]]).get? b = some (JSObj.arrv xs) :=
        get?_mono _ [JSObj.objv [("imports", JSVal.ref h.length), ("scopes", JSVal.ref (h ++ [JSObj.objv fs_i] ++ extS).length), ("depcache", JSVal.ref (h ++ [JSObj.objv fs_i] ++ extS ++ [JSObj.objv fsS'] ++ extD).length)]] _ _ (get?_mono _ [JSObj.objv fsD'] _ _ hbg)
      simp only [valAddrs, hbgHP] at hxp
      rcases List.mem_cons.mp hxp with rfl | hxp2
      · have hge2 := hbge
        simp only [List.length_append, List.length_cons, List.length_nil] at hge2
        omega
      · exfalso
        obtain ⟨q, hq, hxq⟩ := List.mem_flatMap.mp hxp2
        cases hqv : q with
        | ref c => exact hbp q hq c hqv
        | nullv => simp [hqv] at hxq
        | str s2 => simp [hqv] at hxq
  have hvalroot : ∀ x ∈ valAddrs (h ++ [JSObj.objv fs_i] ++ extS ++ [JSObj.objv fsS'] ++ extD ++ [JSObj.objv fsD'] ++ [JSObj.objv [("imports", JSVal.ref h.length), ("scopes", JSVal.ref (h ++ [JSObj.objv fs_i] ++ extS).length), ("depcache", JSVal.ref (h ++ [JSObj.objv fs_i] ++ extS ++ [JSObj.objv fsS'] ++ extD).length)]]) 3 (h ++ [JSObj.objv fs_i] ++ extS ++ [JSObj.objv fsS'] ++ extD ++ [JSObj.objv fsD']).length, h.length ≤ x := by
    intro x hx
    simp only [valAddrs, hga2, List.flatMap_cons, List.flatMap_nil, List.append_nil] at hx
    rcases List.mem_cons.mp hx with rfl | hx2
    · simp only [List.length_append, List.length_cons, List.length_nil]
      omega
    · rcases List.mem_append.mp hx2 with hxa | hx3
      · exact hsubI x hxa
      · rcases List.mem_append.mp hx3 with hxb | hxc
        · exact hsubS x hxb
        · exact hsubD x hxc
  refine ⟨(h ++ [JSObj.objv fs_i] ++ extS ++ [JSObj.objv fsS'] ++ extD ++ [JSObj.objv fsD'] ++ [JSObj.objv [("imports", JSVal.ref h.length), ("scopes", JSVal.ref (h ++ [JSObj.objv fs_i] ++ extS).length), ("depcache", JSVal.ref (h ++ [JSObj.objv fs_i] ++ extS ++ [JSObj.objv fsS'] ++ extD).length)]]), (h ++ [JSObj.objv fs_i] ++ extS ++ [JSObj.objv fsS'] ++ extD ++ [JSObj.objv fsD']).length, hatRoot, ?_, hmapClone, hmapOrig, hvalroot, ?_⟩
  · refine ⟨[JSObj.objv fs_i] ++ extS ++ [JSObj.objv fsS'] ++ extD ++ [JSObj.objv fsD']
      ++ [JSObj.objv [("imports", JSVal.ref h.length), ("scopes", JSVal.ref (h ++ [JSObj.objv fs_i] ++ extS).length), ("depcache", JSVal.ref (h ++ [JSObj.objv fs_i] ++ extS ++ [JSObj.objv fsS'] ++ extD).length)]], ?_⟩
    simp [List.append_assoc]
  · intro x hx o
    refine readMap_agree h _ ?_ a M hr
    intro j hj
    have hxge := hvalroot x hx
    rw [heapSet, List.get?_eq_getElem?, List.getElem?_set_ne (by omega),
      ← List.get?_eq_getElem?, hagree j hj]

/-- Claim C10 witness: the clone-isolation theorem applied to a concrete
six-object heap holding an import map at address 5. -/
theorem claim10_witness :
    ∃ hh aa, deepCloneAt c10heap 3 5 = some (hh, aa) ∧
      (∃ ext, hh = c10heap ++ ext) ∧
      readMap hh aa = some c10map ∧
      readMap hh 5 = some c10map ∧
      (∀ x ∈ valAddrs hh 3 aa, c10heap.length ≤ x) ∧
      (∀ x ∈ valAddrs hh 3 aa, ∀ o : JSObj, readMap (heapSet hh x o) 5 = some c10map) :=
  claim10_thm c10heap 5 c10map (by rfl)

/-! ### C3 lemma layer -/

theorem alook_map_upd (t : List (String × TEntry)) (u : String) (f : TEntry → TEntry)
    (w : String) :
    alook (t.map (fun p => if p.1 = u then (p.1, f p.2) else p)) w =
      if w = u then (alook t u).map f else alook t w := by
  induction t with
  | nil => by_cases hw : w = u <;> simp [alook, hw]
  | cons a t ih =>
    simp only [List.map_cons]
    by_cases hau : a.1 = u <;> by_cases haw : a.1 = w
    · have hwu : w = u := by rw [← haw, hau]
      subst hwu
      simp [alook_cons, hau, haw]
    · have hwu : ¬ w = u := fun h => haw (by rw [hau, h])
      have huw : ¬ u = w := fun h => hwu h.symm
      simp [alook_cons, hau, haw, hwu, huw, ih]
    · have hwu : ¬ w = u := fun h => hau (by rw [haw, h])
      simp [alook_cons, hau, haw, hwu, ih]
    · by_cases hwu : w = u
      · subst hwu
        simp [alook_cons, hau, haw, ih]
      · simp [alook_cons, hau, haw, hwu, ih]

theorem alook_append_one {β : Type} (t : List (String × β)) (k : String) (e0 : β)
    (w : String) :
    alook (t ++ [(k, e0)]) w = (alook t w).or (if k = w then some e0 else none) := by
  induction t with
  | nil => by_cases h : k = w <;> simp [alook, h]
  | cons a t ih =>
    rw [List.cons_append, alook_cons, alook_cons]
    by_cases h : a.1 = w <;> simp [h, ih]

theorem mem_aset_self {β : Type} (l : List (String × β)) (k : String) (v : β) :
    (k, v) ∈ aset l k v := by
  unfold aset
  by_cases h : (alook l k).isSome
  · rw [if_pos h]
    obtain ⟨p0, hp0⟩ : ∃ p0, l.find? (fun p => p.1 = k) = some p0 := by
      unfold alook at h
      cases hf : l.find? (fun p => p.1 = k) with
      | none => rw [hf] at h; simp at h
      | some p0 => exact ⟨p0, rfl⟩
    have hmem := List.mem_of_find?_eq_some hp0
    have hkey : p0.1 = k := by
      have := List.find?_some hp0
      exact of_decide_eq_true this
    exact List.mem_map.mpr ⟨p0, hmem, by simp [hkey]⟩
  · rw [if_neg h]
    exact List.mem_append.mpr (Or.inr (List.mem_singleton.mpr rfl))

theorem mem_aset_keep {β : Type} (l : List (String × β)) (k : String) (v : β)
    (p : String × β) (hp : p ∈ l) (hv : p.1 = k → p.2 = v) : p ∈ aset l k v := by
  unfold aset
  by_cases h : (alook l k).isSome
  · rw [if_pos h]
    by_cases hk : p.1 = k
    · have hpv : p = (k, v) := by
        obtain ⟨p1, p2⟩ := p
        simp only at hk hv
        rw [hk, hv hk]
      refine List.mem_map.mpr ⟨p, hp, ?_⟩
      rw [if_pos hk, ← hpv]
    · exact List.mem_map.mpr ⟨p, hp, by rw [if_neg hk]⟩
  · rw [if_neg h]
    exact List.mem_append.mpr (Or.inl hp)

theorem mem_aset_elim {β : Type} (l : List (String × β)) (k : String) (v : β)
    (q : String × β) (hq : q ∈ aset l k v) : q ∈ l ∨ q = (k, v) := by
  unfold aset at hq
  by_cases h : (alook l k).isSome
  · rw [if_pos h] at hq
    obtain ⟨p, hp, hfp⟩ := List.mem_map.mp hq
    by_cases hk : p.1 = k
    · rw [if_pos hk] at hfp; exact Or.inr hfp.symm
    · rw [if_neg hk] at hfp; exact Or.inl (hfp ▸ hp)
  · rw [if_neg h] at hq
    rcases List.mem_append.mp hq with h1 | h1
    · exact Or.inl h1
    · exact Or.inr (List.mem_singleton.mp h1)



theorem setCur_node_trace (st : TState) (u spec : String) (r : Option String) (w : String) :
    alook ((setCur st (.node u) spec r)).trace w =
      if w = u then (alook st.trace u).map
        (fun e => { e with deps := aset e.deps spec r }) else alook st.trace w :=
  alook_map_upd st.trace u (fun e => { e with deps := aset e.deps spec r }) w

theorem setCur_top_trace (st : TState) (spec : String) (r : Option String) :
    ((setCur st .top spec r)).trace = st.trace := rfl

theorem setCur_post (st : TState) (cur : Cur) (spec : String) (r : Option String) :
    ((setCur st cur spec r)).post = st.post := by
  cases cur <;> rfl

theorem setSize_trace (st : TState) (u : String) (s : Nat) (w : String) :
    alook ((setSize st u s)).trace w =
      if w = u then (alook st.trace u).map
        (fun e => { e with size := some s }) else alook st.trace w :=
  alook_map_upd st.trace u (fun e => { e with size := some s }) w

theorem setSize_post (st : TState) (u : String) (s : Nat) :
    ((setSize st u s)).post = st.post := rfl

theorem finishNode_trace (st : TState) (u : String) (w : String) :
    alook ((finishNode st u)).trace w =
      if w = u then (alook st.trace u).map
        (fun e => { e with order := some st.post }) else alook st.trace w :=
  alook_map_upd st.trace u (fun e => { e with order := some st.post }) w

theorem finishNode_post (st : TState) (u : String) :
    ((finishNode st u)).post = st.post + 1 := rfl

theorem setCur_keys (st : TState) (cur : Cur) (spec : String) (r : Option String)
    (w : String) :
    (alook ((setCur st cur spec r)).trace w).isSome = (alook st.trace w).isSome := by
  cases cur with
  | top => rfl
  | node u =>
    rw [setCur_node_trace]
    by_cases h : w = u <;> simp [h]



theorem traceLE_refl (t : List (String × TEntry)) : traceLE t t :=
  fun _ e h => ⟨e, h, fun _ hp => hp, fun _ ho => ho⟩

theorem traceLE_trans {t t' t'' : List (String × TEntry)}
    (h1 : traceLE t t') (h2 : traceLE t' t'') : traceLE t t'' := by
  intro u e he
  obtain ⟨e1, he1, hd1, ho1⟩ := h1 u e he
  obtain ⟨e2, he2, hd2, ho2⟩ := h2 u e1 he1
  exact ⟨e2, he2, fun p hp => hd2 p (hd1 p hp), fun o ho => ho2 o (ho1 o ho)⟩

theorem traceLE_keys {t t' : List (String × TEntry)} (h : traceLE t t') (u : String)
    (hu : (alook t u).isSome = true) : (alook t' u).isSome = true := by
  obtain ⟨e, he⟩ := Option.isSome_iff_exists.mp hu
  obtain ⟨e', he', _, _⟩ := h u e he
  simp [he']

theorem ordOf_mono {t t' : List (String × TEntry)} (h : traceLE t t') {v : String}
    {ov : Nat} (hv : ordOf t v = some ov) : ordOf t' v = some ov := by
  unfold ordOf at hv ⊢
  cases hl : alook t v with
  | none => rw [hl] at hv; cases hv
  | some e =>
    rw [hl] at hv
    obtain ⟨e', he', _, ho⟩ := h v e hl
    rw [he']
    exact ho ov hv

theorem pathP_mono {t t' : List (String × TEntry)} (h : traceLE t t') {v u : String}
    (hp : PathP t v u) : PathP t' v u := by
  induction hp with
  | refl x => exact .refl x
  | step d e ha hm _ ih =>
    obtain ⟨e', ha', hd, _⟩ := h _ e ha
    exact .step d e' ha' (hd _ hm) ih

theorem edgeIn_mono {t t' : List (String × TEntry)} (h : traceLE t t') {u v : String}
    (he : EdgeIn t u v) : EdgeIn t' u v := by
  obtain ⟨e, d, ha, hm⟩ := he
  obtain ⟨e', ha', hd, _⟩ := h u e ha
  exact ⟨e', d, ha', hd _ hm⟩

theorem chain_mono {t t' : List (String × TEntry)} (h : traceLE t t')
    (stack : List String) (hc : List.Chain' (fun a b => EdgeIn t b a) stack) :
    List.Chain' (fun a b => EdgeIn t' b a) stack :=
  List.Chain'.imp (fun _ _ he => edgeIn_mono h he) hc

theorem pathP_trans {t : List (String × TEntry)} {u v w : String}
    (h1 : PathP t u v) : PathP t v w → PathP t u w := by
  induction h1 with
  | refl x => exact id
  | step d e ha hm _ ih => exact fun h2 => .step d e ha hm (ih h2)

theorem pathP_of_edge {t : List (String × TEntry)} {u v : String}
    (h : EdgeIn t u v) : PathP t u v := by
  obtain ⟨e, d, ha, hm⟩ := h
  exact .step d e ha hm (.refl v)

theorem chain_path (t : List (String × TEntry)) :
    ∀ stack : List String, List.Chain' (fun a b => EdgeIn t b a) stack →
      ∀ v, v ∈ stack → ∀ u, stack.head? = some u → PathP t v u := by
  intro stack
  induction stack with
  | nil => intro _ v hv; cases hv
  | cons s rest ih =>
    intro hch v hv u hu
    have hsu : s = u := by
      simp only [List.head?_cons, Option.some.injEq] at hu
      exact hu
    subst hsu
    rcases List.mem_cons.mp hv with rfl | hv2
    · exact PathP.refl v
    · cases rest with
      | nil => cases hv2
      | cons s2 r2 =>
        have hch2 := List.chain'_cons.mp hch
        have hp : PathP t v s2 := ih hch2.2 v hv2 s2 rfl
        exact pathP_trans hp (pathP_of_edge hch2.1)

theorem postOrd_mono {t t' : List (String × TEntry)} (hle : traceLE t t')
    {u v : String} {e : TEntry}
    (h : (∃ ov ou, ordOf t v = some ov ∧ e.order = some ou ∧ ov < ou) ∨ PathP t v u) :
    (∃ ov ou, ordOf t' v = some ov ∧ e.order = some ou ∧ ov < ou) ∨ PathP t' v u := by
  rcases h with ⟨ov, ou, h1, h2, h3⟩ | hp
  · exact Or.inl ⟨ov, ou, ordOf_mono hle h1, h2, h3⟩
  · exact Or.inr (pathP_mono hle hp)

theorem ordOf_some_iff {t : List (String × TEntry)} {v : String} {ov : Nat} :
    ordOf t v = some ov ↔ ∃ e, alook t v = some e ∧ e.order = some ov := by
  unfold ordOf
  cases hl : alook t v with
  | none => simp
  | some e => simp



theorem tinv_init (rt : ResTbl) (g : Graph) : TInv rt g ⟨[], [], 0⟩ [] := by
  constructor
  · intro u hu; cases hu
  · intro u e he; cases he
  · trivial
  · intro u e o he; cases he
  · intro u e d v he; cases he
  · intro u e d r he; cases he
  · intro u e he; cases he

theorem head_mem {α : Type} {stack : List α} {u : α} (hu : stack.head? = some u) :
    u ∈ stack := by
  cases stack with
  | nil => cases hu
  | cons s t =>
    simp only [List.head?_cons, Option.some.injEq] at hu
    subst hu
    exact List.mem_cons_self s t

theorem tinv_setCur_node (rt : ResTbl) (g : Graph) (st : TState) (stack : List String)
    (u spec : String) (r : Option String)
    (hinv : TInv rt g st stack) (hu : stack.head? = some u)
    (hr : rlook rt spec u = some r) :
    TInv rt g (setCur st (.node u) spec r) stack ∧
      traceLE st.trace ((setCur st (.node u) spec r)).trace ∧
      ∀ v, r = some v → EdgeIn ((setCur st (.node u) spec r)).trace u v := by
  have humem : u ∈ stack := head_mem hu
  obtain ⟨eU, heU, hordU⟩ := hinv.openStack u humem
  have hdet : ∀ p, p ∈ eU.deps → p.1 = spec → p.2 = r := by
    intro p hp hk
    have hde := hinv.detEdges u eU p.1 p.2 heU hp
    rw [hk, hr] at hde
    exact (Option.some.inj hde).symm
  have hstt : ∀ w, alook ((setCur st (.node u) spec r)).trace w =
      if w = u then (alook st.trace u).map
        (fun e => { e with deps := aset e.deps spec r })
      else alook st.trace w := fun w => setCur_node_trace st u spec r w
  have hatu : alook ((setCur st (.node u) spec r)).trace u =
      some { eU with deps := aset eU.deps spec r } := by
    rw [hstt u, if_pos rfl, heU, Option.map_some']
  have hle : traceLE st.trace ((setCur st (.node u) spec r)).trace := by
    intro w e hw
    by_cases hwu : w = u
    · rw [hwu] at hw ⊢
      rw [hw] at heU
      have hee : e = eU := Option.some.inj heU
      subst hee
      exact ⟨{ e with deps := aset e.deps spec r }, hatu,
        fun p hp => mem_aset_keep e.deps spec r p hp (hdet p hp),
        fun o ho => ho⟩
    · exact ⟨e, by rw [hstt w, if_neg hwu]; exact hw, fun p hp => hp, fun o ho => ho⟩
  have hedge : ∀ v, r = some v → EdgeIn ((setCur st (.node u) spec r)).trace u v := by
    intro v hv
    subst hv
    refine ⟨{ eU with deps := aset eU.deps spec (some v) }, spec, hatu, ?_⟩
    exact mem_aset_self eU.deps spec (some v)
  refine ⟨?_, hle, hedge⟩
  constructor
  · -- openStack
    intro w hws
    by_cases hwu : w = u
    · rw [hwu]
      exact ⟨{ eU with deps := aset eU.deps spec r }, hatu, hordU⟩
    · obtain ⟨e, he, ho⟩ := hinv.openStack w hws
      exact ⟨e, by rw [hstt w, if_neg hwu]; exact he, ho⟩
  · -- closedOff
    intro w e hw ho
    by_cases hwu : w = u
    · rw [hwu]; exact humem
    · rw [hstt w, if_neg hwu] at hw
      exact hinv.closedOff w e hw ho
  · exact chain_mono hle stack hinv.chainEdges
  · -- orderLt
    intro w e o hw ho
    rw [setCur_post]
    by_cases hwu : w = u
    · rw [hwu] at hw
      rw [hatu] at hw
      have hee : e = { eU with deps := aset eU.deps spec r } := (Option.some.inj hw).symm
      rw [hee] at ho
      have ho2 : eU.order = some o := ho
      rw [hordU] at ho2
      exact Option.noConfusion ho2
    · rw [hstt w, if_neg hwu] at hw
      exact hinv.orderLt w e o hw ho
  · -- postOrd
    intro w e d v hw hd hord
    by_cases hwu : w = u
    · rw [hwu] at hw
      rw [hatu] at hw
      have hee : e = { eU with deps := aset eU.deps spec r } := (Option.some.inj hw).symm
      rw [hee] at hord
      have hord2 : eU.order.isSome = true := hord
      rw [hordU] at hord2
      exact Bool.noConfusion hord2
    · rw [hstt w, if_neg hwu] at hw
      exact postOrd_mono hle (hinv.postOrd w e d v hw hd hord)
  · -- detEdges
    intro w e d rr hw hdp
    by_cases hwu : w = u
    · rw [hwu] at hw ⊢
      rw [hatu] at hw
      have hee : e = { eU with deps := aset eU.deps spec r } := (Option.some.inj hw).symm
      rw [hee] at hdp
      have hdp2 : (d, rr) ∈ aset eU.deps spec r := hdp
      rcases mem_aset_elim eU.deps spec r (d, rr) hdp2 with hold | hnew
      · exact hinv.detEdges u eU d rr heU hold
      · have h1 : d = spec := congrArg Prod.fst hnew
        have h2 : rr = r := congrArg Prod.snd hnew
        rw [h1, h2]
        exact hr
    · rw [hstt w, if_neg hwu] at hw
      exact hinv.detEdges w e d rr hw hdp
  · -- keysG
    intro w e hw
    by_cases hwu : w = u
    · rw [hwu]
      exact hinv.keysG u eU heU
    · rw [hstt w, if_neg hwu] at hw
      exact hinv.keysG w e hw

theorem tinv_insert (rt : ResTbl) (g : Graph) (st1 : TState) (stack : List String)
    (url : String) (sz : Nat)
    (hinv : TInv rt g st1 stack)
    (habs : alook st1.trace url = none)
    (hgk : url ∈ gkeys g)
    (hedge : ∀ s t, stack = s :: t → EdgeIn st1.trace s url) :
    TInv rt g (setSize { st1 with trace := st1.trace ++ [(url, ⟨[], none, none⟩)] } url sz)
        (url :: stack) ∧
      traceLE st1.trace
        ((setSize { st1 with trace := st1.trace ++ [(url, ⟨[], none, none⟩)] } url sz)).trace := by
  have hat2 : ∀ w, alook ({ st1 with trace := st1.trace ++ [(url, ⟨[], none, none⟩)] } :
        TState).trace w =
      (alook st1.trace w).or (if url = w then some ⟨[], none, none⟩ else none) :=
    fun w => alook_append_one st1.trace url ⟨[], none, none⟩ w
  have hstt : ∀ w, alook ((setSize { st1 with
        trace := st1.trace ++ [(url, ⟨[], none, none⟩)] } url sz)).trace w =
      if w = url then (alook ({ st1 with
        trace := st1.trace ++ [(url, ⟨[], none, none⟩)] } : TState).trace url).map
          (fun e => { e with size := some sz })
      else alook ({ st1 with
        trace := st1.trace ++ [(url, ⟨[], none, none⟩)] } : TState).trace w :=
    fun w => setSize_trace _ url sz w
  have hat3u : alook ((setSize { st1 with
        trace := st1.trace ++ [(url, ⟨[], none, none⟩)] } url sz)).trace url =
      some ⟨[], some sz, none⟩ := by
    rw [hstt url, if_pos rfl, hat2 url, habs, if_pos rfl]
    rfl
  have hat3 : ∀ w, w ≠ url → alook ((setSize { st1 with
        trace := st1.trace ++ [(url, ⟨[], none, none⟩)] } url sz)).trace w =
      alook st1.trace w := by
    intro w hwu
    rw [hstt w, if_neg hwu, hat2 w, if_neg (fun h => hwu h.symm)]
    exact Option.or_none
  have hpost3 : ((setSize { st1 with
      trace := st1.trace ++ [(url, ⟨[], none, none⟩)] } url sz)).post = st1.post := rfl
  have hle : traceLE st1.trace ((setSize { st1 with
      trace := st1.trace ++ [(url, ⟨[], none, none⟩)] } url sz)).trace := by
    intro w e hw
    have hwu : w ≠ url := by
      intro h
      rw [h, habs] at hw
      exact Option.noConfusion hw
    exact ⟨e, by rw [hat3 w hwu]; exact hw, fun p hp => hp, fun o ho => ho⟩
  refine ⟨?_, hle⟩
  constructor
  · -- openStack
    intro w hws
    rcases List.mem_cons.mp hws with rfl | hws2
    · exact ⟨⟨[], some sz, none⟩, hat3u, rfl⟩
    · obtain ⟨e, he, ho⟩ := hinv.openStack w hws2
      have hwu : w ≠ url := by
        intro h
        rw [h, habs] at he
        exact Option.noConfusion he
      exact ⟨e, by rw [hat3 w hwu]; exact he, ho⟩
  · -- closedOff
    intro w e hw ho
    by_cases hwu : w = url
    · rw [hwu]; exact List.mem_cons_self url stack
    · rw [hat3 w hwu] at hw
      exact List.mem_cons_of_mem url (hinv.closedOff w e hw ho)
  · -- chainEdges
    cases stack with
    | nil => simp [List.chain'_singleton]
    | cons s t =>
      refine List.chain'_cons.mpr ⟨?_, ?_⟩
      · exact edgeIn_mono hle (hedge s t rfl)
      · exact chain_mono hle (s :: t) hinv.chainEdges
  · -- orderLt
    intro w e o hw ho
    rw [hpost3]
    by_cases hwu : w = url
    · rw [hwu] at hw
      rw [hat3u] at hw
      have hee : e = ⟨[], some sz, none⟩ := (Option.some.inj hw).symm
      rw [hee] at ho
      exact Option.noConfusion ho
    · rw [hat3 w hwu] at hw
      exact hinv.orderLt w e o hw ho
  · -- postOrd
    intro w e d v hw hd hord
    by_cases hwu : w = url
    · rw [hwu] at hw
      rw [hat3u] at hw
      have hee : e = ⟨[], some sz, none⟩ := (Option.some.inj hw).symm
      rw [hee] at hord
      exact Bool.noConfusion hord
    · rw [hat3 w hwu] at hw
      exact postOrd_mono hle (hinv.postOrd w e d v hw hd hord)
  · -- detEdges
    intro w e d rr hw hdp
    by_cases hwu : w = url
    · rw [hwu] at hw
      rw [hat3u] at hw
      have hee : e = ⟨[], some sz, none⟩ := (Option.some.inj hw).symm
      rw [hee] at hdp
      exact absurd hdp (List.not_mem_nil _)
    · rw [hat3 w hwu] at hw
      exact hinv.detEdges w e d rr hw hdp
  · -- keysG
    intro w e hw
    by_cases hwu : w = url
    · rw [hwu]; exact hgk
    · rw [hat3 w hwu] at hw
      exact hinv.keysG w e hw

theorem tinv_finish (rt : ResTbl) (g : Graph) (st4 : TState) (stack : List String)
    (url : String)
    (hinv : TInv rt g st4 (url :: stack))
    (hnotin : url ∉ stack)
    (hdeps : ∀ d v e, alook st4.trace url = some e → (d, some v) ∈ e.deps →
      (alook st4.trace v).isSome = true) :
    TInv rt g (finishNode st4 url) stack ∧
      traceLE st4.trace ((finishNode st4 url)).trace := by
  obtain ⟨e4, he4, hord4⟩ := hinv.openStack url (List.mem_cons_self url stack)
  have hstt : ∀ w, alook ((finishNode st4 url)).trace w =
      if w = url then (alook st4.trace url).map
        (fun e => { e with order := some st4.post })
      else alook st4.trace w := fun w => finishNode_trace st4 url w
  have hatu : alook ((finishNode st4 url)).trace url =
      some { e4 with order := some st4.post } := by
    rw [hstt url, if_pos rfl, he4, Option.map_some']
  have hle : traceLE st4.trace ((finishNode st4 url)).trace := by
    intro w e hw
    by_cases hwu : w = url
    · rw [hwu] at hw ⊢
      rw [hw] at he4
      have hee : e = e4 := Option.some.inj he4
      refine ⟨{ e4 with order := some st4.post }, hatu, ?_, ?_⟩
      · intro p hp
        rw [hee] at hp
        exact hp
      · intro o ho
        rw [hee, hord4] at ho
        exact Option.noConfusion ho
    · exact ⟨e, by rw [hstt w, if_neg hwu]; exact hw, fun p hp => hp, fun o ho => ho⟩
  refine ⟨?_, hle⟩
  constructor
  · -- openStack
    intro w hws
    have hwu : w ≠ url := fun h => hnotin (h ▸ hws)
    obtain ⟨e, he, ho⟩ := hinv.openStack w (List.mem_cons_of_mem url hws)
    exact ⟨e, by rw [hstt w, if_neg hwu]; exact he, ho⟩
  · -- closedOff
    intro w e hw ho
    by_cases hwu : w = url
    · rw [hwu] at hw
      rw [hatu] at hw
      have hee : e = { e4 with order := some st4.post } := (Option.some.inj hw).symm
      rw [hee] at ho
      have ho2 : (some st4.post : Option Nat) = none := ho
      exact Option.noConfusion ho2
    · rw [hstt w, if_neg hwu] at hw
      rcases List.mem_cons.mp (hinv.closedOff w e hw ho) with h | h
      · exact absurd h hwu
      · exact h
  · exact chain_mono hle stack hinv.chainEdges.tail
  · -- orderLt
    intro w e o hw ho
    rw [finishNode_post]
    by_cases hwu : w = url
    · rw [hwu] at hw
      rw [hatu] at hw
      have hee : e = { e4 with order := some st4.post } := (Option.some.inj hw).symm
      rw [hee] at ho
      have ho2 : (some st4.post : Option Nat) = some o := ho
      have : o = st4.post := (Option.some.inj ho2).symm
      omega
    · rw [hstt w, if_neg hwu] at hw
      have := hinv.orderLt w e o hw ho
      omega
  · -- postOrd
    intro w e d v hw hd hord
    by_cases hwu : w = url
    · rw [hwu] at hw ⊢
      rw [hatu] at hw
      have hee : e = { e4 with order := some st4.post } := (Option.some.inj hw).symm
      have hd4 : (d, some v) ∈ e4.deps := by
        rw [hee] at hd
        exact hd
      have hvp : (alook st4.trace v).isSome = true := hdeps d v e4 he4 hd4
      obtain ⟨ev, hev⟩ := Option.isSome_iff_exists.mp hvp
      cases hov : ev.order with
      | none =>
        right
        have hvmem : v ∈ url :: stack := hinv.closedOff v ev hev hov
        have hp4 : PathP st4.trace v url :=
          chain_path st4.trace (url :: stack) hinv.chainEdges v hvmem url rfl
        exact pathP_mono hle hp4
      | some ov =>
        left
        refine ⟨ov, st4.post, ?_, by rw [hee], ?_⟩
        · exact ordOf_mono hle (ordOf_some_iff.mpr ⟨ev, hev, hov⟩)
        · exact hinv.orderLt v ev ov hev hov
    · rw [hstt w, if_neg hwu] at hw
      exact postOrd_mono hle (hinv.postOrd w e d v hw hd hord)
  · -- detEdges
    intro w e d rr hw hdp
    by_cases hwu : w = url
    · rw [hwu] at hw ⊢
      rw [hatu] at hw
      have hee : e = { e4 with order := some st4.post } := (Option.some.inj hw).symm
      have hdp4 : (d, rr) ∈ e4.deps := by
        rw [hee] at hdp
        exact hdp
      exact hinv.detEdges url e4 d rr he4 hdp4
    · rw [hstt w, if_neg hwu] at hw
      exact hinv.detEdges w e d rr hw hdp
  · -- keysG
    intro w e hw
    by_cases hwu : w = url
    · rw [hwu]
      exact hinv.keysG url e4 he4
    · rw [hstt w, if_neg hwu] at hw
      exact hinv.keysG w e hw



theorem rtWf_spec {g : Graph} {rt : ResTbl} (hwf : rtWf g rt = true)
    {spec parent u : String} (h : rlook rt spec parent = some (some u)) :
    u ∈ gkeys g := by
  unfold rlook at h
  cases hf : rt.find? (fun e => e.1 = spec && e.2.1 = parent) with
  | none => rw [hf] at h; exact Option.noConfusion h
  | some pr =>
    rw [hf, Option.map_some'] at h
    have h2 : pr.2.2 = some u := Option.some.inj h
    have hmem := List.mem_of_find?_eq_some hf
    have hall := List.all_eq_true.mp hwf pr hmem
    rw [h2] at hall
    exact of_decide_eq_true hall

theorem depsOK_of_eq {st st' : TState} (h : st'.trace = st.trace) :
    ∀ w, DepsOK st st' w := by
  intro w e0 e' h0 h' p hp
  rw [h, h0] at h'
  have hee : e' = e0 := (Option.some.inj h').symm
  rw [hee] at hp
  exact Or.inl hp

theorem depsOK_comp {st1 st2 st3 : TState}
    (h12 : ∀ w, DepsOK st1 st2 w) (h23 : ∀ w, DepsOK st2 st3 w)
    (hle12 : traceLE st1.trace st2.trace) (hle23 : traceLE st2.trace st3.trace) :
    ∀ w, DepsOK st1 st3 w := by
  intro w e0 e' h0 h' p hp
  obtain ⟨e1, h1, _, _⟩ := hle12 w e0 h0
  rcases h23 w e1 e' h1 h' p hp with hmem | hpres
  · rcases h12 w e0 e1 h0 h1 p hmem with hmem0 | hpres1
    · exact Or.inl hmem0
    · exact Or.inr (fun v hv => traceLE_keys hle23 v (hpres1 v hv))
  · exact Or.inr hpres



theorem finish_keys (st : TState) (url u : String)
    (hu : (alook st.trace u).isSome = true) :
    (alook ((finishNode st url)).trace u).isSome = true := by
  rw [finishNode_trace]
  by_cases hwu : u = url
  · rw [hwu] at hu
    rw [if_pos hwu]
    obtain ⟨e, he⟩ := Option.isSome_iff_exists.mp hu
    rw [he]
    rfl
  · rw [if_neg hwu]
    exact hu

theorem insert_keys (st1 : TState) (url : String) (sz : Nat) (u : String)
    (hu : (alook st1.trace u).isSome = true) :
    (alook ((setSize { st1 with trace := st1.trace ++ [(url, ⟨[], none, none⟩)] }
      url sz)).trace u).isSome = true := by
  rw [setSize_trace]
  have h2 : (alook (st1.trace ++ [(url, ⟨[], none, none⟩)]) u).isSome = true := by
    rw [alook_append_one]
    obtain ⟨e, he⟩ := Option.isSome_iff_exists.mp hu
    rw [he]
    rfl
  by_cases hwu : u = url
  · rw [if_pos hwu]
    rw [hwu] at h2
    obtain ⟨e, he⟩ := Option.isSome_iff_exists.mp h2
    have he2 : alook (({ st1 with trace := st1.trace ++ [(url, ⟨[], none, none⟩)] } :
        TState)).trace url = some e := he
    rw [he2]
    rfl
  · rw [if_neg hwu]
    exact h2

theorem insert_keys_self (st1 : TState) (url : String) (sz : Nat)
    (habs : alook st1.trace url = none) :
    alook ((setSize { st1 with trace := st1.trace ++ [(url, ⟨[], none, none⟩)] }
      url sz)).trace url = some ⟨[], some sz, none⟩ := by
  rw [setSize_trace, if_pos rfl]
  have h2 : alook (st1.trace ++ [(url, ⟨[], none, none⟩)]) url =
      some ⟨[], none, none⟩ := by
    rw [alook_append_one, habs, if_pos rfl]
    rfl
  have h2b : alook (({ st1 with trace := st1.trace ++ [(url, ⟨[], none, none⟩)] } :
      TState)).trace url = some ⟨[], none, none⟩ := h2
  rw [h2b]
  rfl

theorem trace_keys_grow (g : Graph) (rt : ResTbl) : ∀ fuel : Nat,
    (∀ spec parent cur st st', doTrace g rt fuel spec parent cur st = .ok st' →
      ∀ u, (alook st.trace u).isSome = true → (alook st'.trace u).isSome = true) ∧
    (∀ ds url st st', doTraceList g rt fuel ds url st = .ok st' →
      ∀ u, (alook st.trace u).isSome = true → (alook st'.trace u).isSome = true) := by
  intro fuel
  induction fuel with
  | zero =>
    constructor
    · intro spec parent cur st st' h
      rw [show doTrace g rt 0 spec parent cur st = .error .fuelOut by simp [doTrace]] at h
      exact Except.noConfusion h
    · intro ds url st st' h u hu
      cases ds with
      | nil =>
        rw [show doTraceList g rt 0 [] url st = .ok st by simp [doTraceList]] at h
        have : st = st' := Except.ok.inj h
        rw [← this]
        exact hu
      | cons d ds =>
        rw [doTraceList] at h
        rw [show doTrace g rt 0 d url (.node url) st = .error .fuelOut by simp [doTrace]] at h
        exact Except.noConfusion h
  | succ fuel ih =>
    have P1 : ∀ spec parent cur st st', doTrace g rt (fuel + 1) spec parent cur st = .ok st' →
        ∀ u, (alook st.trace u).isSome = true → (alook st'.trace u).isSome = true := by
      intro spec parent cur st st' h u hu
      rw [doTrace] at h
      split at h
      · exact Except.noConfusion h
      · rename_i resolved hr
        cases resolved with
        | none =>
          simp only [] at h
          have hst : setCur st cur spec none = st' := Except.ok.inj h
          rw [← hst, setCur_keys]
          exact hu
        | some url =>
          simp only [] at h
          by_cases hmemo : (alook ((setCur st cur spec (some url))).trace url).isSome =
              true
          · rw [if_pos hmemo] at h
            have hst : setCur st cur spec (some url) = st' := Except.ok.inj h
            rw [← hst, setCur_keys]
            exact hu
          · rw [if_neg hmemo] at h
            cases hg : alook g url with
            | none =>
              simp only [hg] at h
              exact Except.noConfusion h
            | some a =>
              simp only [hg] at h
              split at h
              · exact Except.noConfusion h
              · rename_i st4 hdl
                have hst : finishNode st4 url = st' := Except.ok.inj h
                have h1 : (alook ((setCur st cur spec (some url))).trace u).isSome =
                    true := by
                  rw [setCur_keys]
                  exact hu
                have h3 := insert_keys (setCur st cur spec (some url)) url a.2 u h1
                have h4 := ih.2 a.1 url _ st4 hdl u h3
                rw [← hst]
                exact finish_keys st4 url u h4
    refine ⟨P1, ?_⟩
    intro ds
    induction ds with
    | nil =>
      intro url st st' h u hu
      rw [show doTraceList g rt (fuel + 1) [] url st = .ok st by simp [doTraceList]] at h
      have : st = st' := Except.ok.inj h
      rw [← this]
      exact hu
    | cons d ds ihd =>
      intro url st st' h u hu
      rw [doTraceList] at h
      cases hdt : doTrace g rt (fuel + 1) d url (.node url) st with
      | error e =>
        rw [hdt] at h
        exact Except.noConfusion h
      | ok st1 =>
        rw [hdt] at h
        exact ihd url st1 st' h u (P1 d url (.node url) st st1 hdt u hu)



theorem filter_length_lt {α : Type} (l : List α) (p q : α → Bool)
    (himp : ∀ x, q x = true → p x = true)
    (x0 : α) (hx0 : x0 ∈ l) (hpx0 : p x0 = true) (hqx0 : q x0 = false) :
    (l.filter q).length < (l.filter p).length := by
  obtain ⟨l1, l2, rfl⟩ := List.append_of_mem hx0
  have h1 : l1.countP q ≤ l1.countP p := List.countP_mono_left (fun x _ hx => himp x hx)
  have h2 : l2.countP q ≤ l2.countP p := List.countP_mono_left (fun x _ hx => himp x hx)
  have hc1 : List.countP q (x0 :: l2) = List.countP q l2 := by
    rw [List.countP_cons, hqx0]
    simp
  have hc2 : List.countP p (x0 :: l2) = List.countP p l2 + 1 := by
    rw [List.countP_cons, hpx0]
    simp
  rw [← List.countP_eq_length_filter, ← List.countP_eq_length_filter,
    List.countP_append, List.countP_append, hc1, hc2]
  omega

theorem missing_lt (g : Graph) (st st' : TState) (url : String)
    (hurl : url ∈ gkeys g)
    (hold : alook st.trace url = none)
    (hnew : (alook st'.trace url).isSome = true)
    (hkeys : ∀ u, (alook st.trace u).isSome = true → (alook st'.trace u).isSome = true) :
    missing g st' < missing g st := by
  refine filter_length_lt (gkeys g) (fun u => (alook st.trace u).isNone)
    (fun u => (alook st'.trace u).isNone) ?_ url hurl ?_ ?_
  · intro x hx
    simp only at hx ⊢
    rw [Option.isNone_iff_eq_none] at hx
    rw [Option.isNone_iff_eq_none]
    cases hc : alook st.trace x with
    | none => rfl
    | some e =>
      have h2 := hkeys x (by rw [hc]; rfl)
      rw [hx] at h2
      exact Bool.noConfusion h2
  · simp only
    rw [Option.isNone_iff_eq_none]
    exact hold
  · simp only
    cases hc : alook st'.trace url with
    | none =>
      rw [hc] at hnew
      exact Bool.noConfusion hnew
    | some e => rfl

theorem missing_le (g : Graph) (st st' : TState)
    (hkeys : ∀ u, (alook st.trace u).isSome = true → (alook st'.trace u).isSome = true) :
    missing g st' ≤ missing g st := by
  unfold missing
  rw [← List.countP_eq_length_filter, ← List.countP_eq_length_filter]
  refine List.countP_mono_left ?_
  intro x _ hx
  simp only at hx ⊢
  rw [Option.isNone_iff_eq_none] at hx
  rw [Option.isNone_iff_eq_none]
  cases hc : alook st.trace x with
  | none => rfl
  | some e =>
    have h2 := hkeys x (by rw [hc]; rfl)
    rw [hx] at h2
    exact Bool.noConfusion h2

theorem missing_insert (g : Graph) (st : TState) (cur : Cur) (spec url : String)
    (sz : Nat) (hurl : url ∈ gkeys g)
    (hmemo : (alook ((setCur st cur spec (some url))).trace url).isSome = false) :
    missing g (setSize { setCur st cur spec (some url) with
      trace := ((setCur st cur spec (some url))).trace ++ [(url, ⟨[], none, none⟩)] }
      url sz) < missing g st := by
  have habs1 : alook ((setCur st cur spec (some url))).trace url = none := by
    cases hc : alook ((setCur st cur spec (some url))).trace url with
    | none => rfl
    | some e =>
      rw [hc] at hmemo
      exact Bool.noConfusion hmemo
  have hold : alook st.trace url = none := by
    cases hc : alook st.trace url with
    | none => rfl
    | some e =>
      have h1 : (alook st.trace url).isSome = true := by rw [hc]; rfl
      rw [← setCur_keys st cur spec (some url) url] at h1
      rw [habs1] at h1
      exact Bool.noConfusion h1
  refine missing_lt g st _ url hurl hold ?_ ?_
  · rw [insert_keys_self (setCur st cur spec (some url)) url sz habs1]
    rfl
  · intro u hu
    refine insert_keys (setCur st cur spec (some url)) url sz u ?_
    rw [setCur_keys]
    exact hu

theorem trace_fuel (g : Graph) (rt : ResTbl) (hwf : rtWf g rt = true) : ∀ fuel : Nat,
    (∀ spec parent cur st, missing g st < fuel →
      doTrace g rt fuel spec parent cur st ≠ .error .fuelOut) ∧
    (∀ ds url st, missing g st < fuel →
      doTraceList g rt fuel ds url st ≠ .error .fuelOut) := by
  intro fuel
  induction fuel with
  | zero =>
    constructor
    · intro spec parent cur st hm
      exact absurd hm (Nat.not_lt_zero _)
    · intro ds url st hm
      exact absurd hm (Nat.not_lt_zero _)
  | succ fuel ih =>
    have P1 : ∀ spec parent cur st, missing g st < fuel + 1 →
        doTrace g rt (fuel + 1) spec parent cur st ≠ .error .fuelOut := by
      intro spec parent cur st hm
      rw [doTrace]
      split
      · intro hh
        exact TErr.noConfusion (Except.error.inj hh)
      · rename_i resolved hr
        cases resolved with
        | none =>
          simp only []
          intro hh
          exact Except.noConfusion hh
        | some url =>
          simp only []
          by_cases hmemo : (alook ((setCur st cur spec (some url))).trace url).isSome =
              true
          · rw [if_pos hmemo]
            intro hh
            exact Except.noConfusion hh
          · rw [if_neg hmemo]
            have hmemo2 : (alook ((setCur st cur spec (some url))).trace url).isSome =
                false := by
              cases hb : (alook ((setCur st cur spec (some url))).trace url).isSome with
              | false => rfl
              | true => exact absurd hb hmemo
            cases hg : alook g url with
            | none =>
              simp only [hg]
              intro hh
              exact TErr.noConfusion (Except.error.inj hh)
            | some a =>
              simp only [hg]
              have hurl : url ∈ gkeys g := rtWf_spec hwf hr
              have hlt := missing_insert g st cur spec url a.2 hurl hmemo2
              have hm3 : missing g (setSize { setCur st cur spec (some url) with
                  trace := ((setCur st cur spec (some url))).trace ++
                    [(url, ⟨[], none, none⟩)] } url a.2) < fuel := by omega
              have hQ := ih.2 a.1 url _ hm3
              split
              · rename_i e hdl
                intro hh
                have he : e = .fuelOut := Except.error.inj hh
                rw [he] at hdl
                exact hQ hdl
              · intro hh
                exact Except.noConfusion hh
    refine ⟨P1, ?_⟩
    intro ds
    induction ds with
    | nil =>
      intro url st hm
      rw [show doTraceList g rt (fuel + 1) [] url st = .ok st by simp [doTraceList]]
      intro hh
      exact Except.noConfusion hh
    | cons d ds ihd =>
      intro url st hm
      rw [doTraceList]
      cases hdt : doTrace g rt (fuel + 1) d url (.node url) st with
      | error e =>
        intro hh
        have he : e = .fuelOut := Except.error.inj hh
        rw [he] at hdt
        exact P1 d url (.node url) st hm hdt
      | ok st1 =>
        have hkeys := (trace_keys_grow g rt (fuel + 1)).1 d url (.node url) st st1 hdt
        have hle := missing_le g st st1 hkeys
        exact ihd url st1 (by omega)



theorem tinv_congr (rt : ResTbl) (g : Graph) (st st' : TState) (stack : List String)
    (ht : st'.trace = st.trace) (hp : st'.post = st.post)
    (hinv : TInv rt g st stack) : TInv rt g st' stack := by
  constructor
  · intro u hu
    rw [ht]
    exact hinv.openStack u hu
  · intro u e he ho
    rw [ht] at he
    exact hinv.closedOff u e he ho
  · rw [ht]
    exact hinv.chainEdges
  · intro u e o he ho
    rw [ht] at he
    rw [hp]
    exact hinv.orderLt u e o he ho
  · intro u e d v he hd hord
    rw [ht] at he ⊢
    exact hinv.postOrd u e d v he hd hord
  · intro u e d r he hd
    rw [ht] at he
    exact hinv.detEdges u e d r he hd
  · intro u e he
    rw [ht] at he
    exact hinv.keysG u e he

theorem setCur_deps_elim (st : TState) (cur : Cur) (spec : String) (r : Option String)
    (w : String) (e0 e1 : TEntry)
    (h0 : alook st.trace w = some e0)
    (h1 : alook ((setCur st cur spec r)).trace w = some e1) :
    ∀ p, p ∈ e1.deps → p ∈ e0.deps ∨ p = (spec, r) := by
  cases cur with
  | top =>
    rw [setCur_top_trace, h0] at h1
    have hee : e1 = e0 := (Option.some.inj h1).symm
    intro p hp
    rw [hee] at hp
    exact Or.inl hp
  | node u =>
    by_cases hwu : w = u
    · rw [hwu] at h0 h1
      rw [setCur_node_trace, if_pos rfl, h0, Option.map_some'] at h1
      have hee : e1 = { e0 with deps := aset e0.deps spec r } := (Option.some.inj h1).symm
      intro p hp
      rw [hee] at hp
      have hp2 : p ∈ aset e0.deps spec r := hp
      exact mem_aset_elim e0.deps spec r p hp2
    · rw [setCur_node_trace, if_neg hwu, h0] at h1
      have hee : e1 = e0 := (Option.some.inj h1).symm
      intro p hp
      rw [hee] at hp
      exact Or.inl hp

theorem depsOK_setCur (st : TState) (cur : Cur) (spec : String) (r : Option String)
    (hpres : ∀ v, r = some v →
      (alook ((setCur st cur spec r)).trace v).isSome = true) :
    ∀ w, DepsOK st (setCur st cur spec r) w := by
  intro w e0 e' h0 h' p hp
  rcases setCur_deps_elim st cur spec r w e0 e' h0 h' p hp with hl | hnew
  · exact Or.inl hl
  · refine Or.inr ?_
    intro v hv
    have h2 : p.2 = r := congrArg Prod.snd hnew
    rw [h2] at hv
    exact hpres v hv

theorem insert_trace_ne (st1 : TState) (url : String) (sz : Nat) (w : String)
    (hwu : w ≠ url) :
    alook ((setSize { st1 with trace := st1.trace ++ [(url, ⟨[], none, none⟩)] }
      url sz)).trace w = alook st1.trace w := by
  rw [setSize_trace, if_neg hwu]
  have h2 : alook (st1.trace ++ [(url, ⟨[], none, none⟩)]) w =
      (alook st1.trace w).or (if url = w then some ⟨[], none, none⟩ else none) :=
    alook_append_one st1.trace url ⟨[], none, none⟩ w
  have h2b : alook (({ st1 with trace := st1.trace ++ [(url, ⟨[], none, none⟩)] } :
      TState)).trace w = (alook st1.trace w).or
      (if url = w then some ⟨[], none, none⟩ else none) := h2
  rw [h2b, if_neg (fun h => hwu h.symm)]
  exact Option.or_none



theorem trace_inv (g : Graph) (rt : ResTbl) (hwf : rtWf g rt = true) : ∀ fuel : Nat,
    (∀ spec parent cur st st' stack,
      doTrace g rt fuel spec parent cur st = .ok st' →
      TInv rt g st stack → CurOK parent cur stack →
      TInv rt g st' stack ∧ traceLE st.trace st'.trace ∧ st.post ≤ st'.post ∧
        ∀ w, DepsOK st st' w) ∧
    (∀ ds url st st' stack,
      doTraceList g rt fuel ds url st = .ok st' →
      TInv rt g st stack → stack.head? = some url →
      TInv rt g st' stack ∧ traceLE st.trace st'.trace ∧ st.post ≤ st'.post ∧
        ∀ w, DepsOK st st' w) := by
  intro fuel
  induction fuel with
  | zero =>
    constructor
    · intro spec parent cur st st' stack h
      rw [show doTrace g rt 0 spec parent cur st = .error .fuelOut by simp [doTrace]] at h
      exact Except.noConfusion h
    · intro ds url st st' stack h hinv hhead
      cases ds with
      | nil =>
        rw [show doTraceList g rt 0 [] url st = .ok st by simp [doTraceList]] at h
        have hst : st = st' := Except.ok.inj h
        rw [← hst]
        exact ⟨hinv, traceLE_refl _, le_refl _, depsOK_of_eq rfl⟩
      | cons d ds =>
        rw [doTraceList] at h
        rw [show doTrace g rt 0 d url (.node url) st = .error .fuelOut by
          simp [doTrace]] at h
        exact Except.noConfusion h
  | succ fuel ih =>
    have P1 : ∀ spec parent cur st st' stack,
        doTrace g rt (fuel + 1) spec parent cur st = .ok st' →
        TInv rt g st stack → CurOK parent cur stack →
        TInv rt g st' stack ∧ traceLE st.trace st'.trace ∧ st.post ≤ st'.post ∧
          ∀ w, DepsOK st st' w := by
      intro spec parent cur st st' stack h hinv hcur
      rw [doTrace] at h
      split at h
      · exact Except.noConfusion h
      · rename_i resolved hr
        cases resolved with
        | none =>
          simp only [] at h
          have hst : setCur st cur spec none = st' := Except.ok.inj h
          subst hst
          cases cur with
          | top =>
            exact ⟨tinv_congr rt g st _ stack rfl rfl hinv,
              by rw [setCur_top_trace]; exact traceLE_refl _,
              by rw [setCur_post],
              depsOK_setCur st .top spec none (fun v hv => Option.noConfusion hv)⟩
          | node u =>
            have hcu : stack.head? = some u ∧ parent = u := hcur
            rw [hcu.2] at hr
            obtain ⟨hi, hl, _⟩ := tinv_setCur_node rt g st stack u spec none hinv hcu.1 hr
            exact ⟨hi, hl, by rw [setCur_post],
              depsOK_setCur st (.node u) spec none (fun v hv => Option.noConfusion hv)⟩
        | some url =>
          simp only [] at h
          by_cases hmemo : (alook ((setCur st cur spec (some url))).trace url).isSome =
              true
          · rw [if_pos hmemo] at h
            have hst : setCur st cur spec (some url) = st' := Except.ok.inj h
            subst hst
            have hpres : ∀ v, (some url : Option String) = some v →
                (alook ((setCur st cur spec (some url))).trace v).isSome = true := by
              intro v hv
              rw [← Option.some.inj hv]
              exact hmemo
            cases cur with
            | top =>
              exact ⟨tinv_congr rt g st _ stack rfl rfl hinv,
                by rw [setCur_top_trace]; exact traceLE_refl _,
                by rw [setCur_post],
                depsOK_setCur st .top spec (some url) hpres⟩
            | node u =>
              have hcu : stack.head? = some u ∧ parent = u := hcur
              rw [hcu.2] at hr
              obtain ⟨hi, hl, _⟩ := tinv_setCur_node rt g st stack u spec (some url)
                hinv hcu.1 hr
              exact ⟨hi, hl, by rw [setCur_post],
                depsOK_setCur st (.node u) spec (some url) hpres⟩
          · rw [if_neg hmemo] at h
            have habs1 : alook ((setCur st cur spec (some url))).trace url = none := by
              cases hc : alook ((setCur st cur spec (some url))).trace url with
              | none => rfl
              | some e =>
                rw [hc] at hmemo
                exact absurd rfl hmemo
            cases hg : alook g url with
            | none =>
              simp only [hg] at h
              exact Except.noConfusion h
            | some a =>
              simp only [hg] at h
              have hurl : url ∈ gkeys g := rtWf_spec hwf hr
              have hstep1 : TInv rt g (setCur st cur spec (some url)) stack ∧
                  traceLE st.trace ((setCur st cur spec (some url))).trace ∧
                  (∀ s t, stack = s :: t →
                    EdgeIn ((setCur st cur spec (some url))).trace s url) := by
                cases cur with
                | top =>
                  have hstk : stack = [] := hcur
                  refine ⟨tinv_congr rt g st _ stack rfl rfl hinv,
                    by rw [setCur_top_trace]; exact traceLE_refl _, ?_⟩
                  intro s t hstk2
                  rw [hstk] at hstk2
                  exact List.noConfusion hstk2
                | node u =>
                  have hcu : stack.head? = some u ∧ parent = u := hcur
                  rw [hcu.2] at hr
                  obtain ⟨hi, hl, hedge⟩ := tinv_setCur_node rt g st stack u spec
                    (some url) hinv hcu.1 hr
                  refine ⟨hi, hl, ?_⟩
                  intro s t hstk2
                  have hcu1 := hcu.1
                  rw [hstk2] at hcu1
                  have hsu : s = u := by
                    simp only [List.head?_cons, Option.some.injEq] at hcu1
                    exact hcu1
                  rw [hsu]
                  exact hedge url rfl
              obtain ⟨hinv1, hle1, hedge1⟩ := hstep1
              obtain ⟨hinv3, hle3⟩ := tinv_insert rt g (setCur st cur spec (some url))
                stack url a.2 hinv1 habs1 hurl hedge1
              split at h
              · exact Except.noConfusion h
              · rename_i st4 hdl
                have hst : finishNode st4 url = st' := Except.ok.inj h
                obtain ⟨hinv4, hle34, hpost34, hdok34⟩ :=
                  ih.2 a.1 url _ st4 (url :: stack) hdl hinv3 rfl
                have hnotin : url ∉ stack := by
                  intro hmem
                  obtain ⟨e, he, _⟩ := hinv1.openStack url hmem
                  rw [habs1] at he
                  exact Option.noConfusion he
                have h30 : alook ((setSize { setCur st cur spec (some url) with
                    trace := ((setCur st cur spec (some url))).trace ++
                      [(url, ⟨[], none, none⟩)] } url a.2)).trace url =
                    some ⟨[], some a.2, none⟩ :=
                  insert_keys_self (setCur st cur spec (some url)) url a.2 habs1
                have hdeps : ∀ d2 v e, alook st4.trace url = some e →
                    (d2, some v) ∈ e.deps → (alook st4.trace v).isSome = true := by
                  intro d2 v e he hd
                  rcases hdok34 url ⟨[], some a.2, none⟩ e h30 he (d2, some v) hd with
                    hl | hrr
                  · have hl2 : (d2, some v) ∈ ([] : List (String × Option String)) := hl
                    exact absurd hl2 (List.not_mem_nil _)
                  · exact hrr v rfl
                obtain ⟨hinvF, hleF⟩ := tinv_finish rt g st4 stack url hinv4 hnotin hdeps
                rw [← hst]
                refine ⟨hinvF, ?_, ?_, ?_⟩
                · exact traceLE_trans hle1 (traceLE_trans hle3
                    (traceLE_trans hle34 hleF))
                · rw [finishNode_post]
                  have hp1 : ((setCur st cur spec (some url))).post = st.post :=
                    setCur_post st cur spec (some url)
                  have hp3 : ((setSize { setCur st cur spec (some url) with
                      trace := ((setCur st cur spec (some url))).trace ++
                        [(url, ⟨[], none, none⟩)] } url a.2)).post =
                      ((setCur st cur spec (some url))).post := rfl
                  have hpost34b : ((setSize { setCur st cur spec (some url) with
                      trace := ((setCur st cur spec (some url))).trace ++
                        [(url, ⟨[], none, none⟩)] } url a.2)).post ≤ st4.post := hpost34
                  omega
                · intro w e0 e' h0 h' p hp
                  by_cases hwu : w = url
                  · exfalso
                    rw [hwu] at h0
                    have h1 : (alook ((setCur st cur spec (some url))).trace url).isSome =
                        true := by
                      rw [setCur_keys, h0]
                      rfl
                    rw [habs1] at h1
                    exact Bool.noConfusion h1
                  · rw [finishNode_trace, if_neg hwu] at h'
                    have h1s : (alook ((setCur st cur spec (some url))).trace w).isSome =
                        true := by
                      rw [setCur_keys, h0]
                      rfl
                    obtain ⟨e1, h1⟩ := Option.isSome_iff_exists.mp h1s
                    have h3 : alook ((setSize { setCur st cur spec (some url) with
                        trace := ((setCur st cur spec (some url))).trace ++
                          [(url, ⟨[], none, none⟩)] } url a.2)).trace w = some e1 := by
                      rw [insert_trace_ne (setCur st cur spec (some url)) url a.2 w hwu]
                      exact h1
                    rcases hdok34 w e1 e' h3 h' p hp with hmem1 | hpres4
                    · rcases setCur_deps_elim st cur spec (some url) w e0 e1 h0 h1 p
                        hmem1 with hl | hnew
                      · exact Or.inl hl
                      · refine Or.inr ?_
                        intro v hv
                        have h2 : p.2 = some url := congrArg Prod.snd hnew
                        rw [h2] at hv
                        have hvu : url = v := Option.some.inj hv
                        rw [← hvu]
                        have hu3 : (alook ((setSize { setCur st cur spec (some url) with
                            trace := ((setCur st cur spec (some url))).trace ++
                              [(url, ⟨[], none, none⟩)] } url a.2)).trace url).isSome =
                            true := by
                          rw [h30]
                          rfl
                        exact finish_keys st4 url url (traceLE_keys hle34 url hu3)
                    · refine Or.inr ?_
                      intro v hv
                      exact finish_keys st4 url v (hpres4 v hv)
    refine ⟨P1, ?_⟩
    intro ds
    induction ds with
    | nil =>
      intro url st st' stack h hinv hhead
      rw [show doTraceList g rt (fuel + 1) [] url st = .ok st by simp [doTraceList]] at h
      have hst : st = st' := Except.ok.inj h
      rw [← hst]
      exact ⟨hinv, traceLE_refl _, le_refl _, depsOK_of_eq rfl⟩
    | cons d ds ihd =>
      intro url st st' stack h hinv hhead
      rw [doTraceList] at h
      cases hdt : doTrace g rt (fuel + 1) d url (.node url) st with
      | error e =>
        rw [hdt] at h
        exact Except.noConfusion h
      | ok st1 =>
        rw [hdt] at h
        obtain ⟨hi1, hl1, hp1, hd1⟩ := P1 d url (.node url) st st1 stack hdt hinv
          ⟨hhead, rfl⟩
        obtain ⟨hi2, hl2, hp2, hd2⟩ := ihd url st1 st' stack h hi1 hhead
        exact ⟨hi2, traceLE_trans hl1 hl2, le_trans hp1 hp2,
          depsOK_comp hd1 hd2 hl1 hl2⟩



theorem traceEntries_fuel (g : Graph) (rt : ResTbl) (hwf : rtWf g rt = true)
    (fuel : Nat) (base : String) :
    ∀ entries st, missing g st < fuel →
      traceEntries g rt fuel base entries st ≠ .error .fuelOut := by
  intro entries
  induction entries with
  | nil =>
    intro st hm
    rw [traceEntries]
    intro hh
    exact Except.noConfusion hh
  | cons e es ihe =>
    intro st hm
    rw [traceEntries]
    cases hdt : doTrace g rt fuel e base .top st with
    | error er =>
      intro hh
      have he2 : er = .fuelOut := Except.error.inj hh
      rw [he2] at hdt
      exact (trace_fuel g rt hwf fuel).1 e base .top st hm hdt
    | ok st1 =>
      have hkeys := (trace_keys_grow g rt fuel).1 e base .top st st1 hdt
      have hle := missing_le g st st1 hkeys
      exact ihe st1 (by omega)

theorem traceEntries_inv (g : Graph) (rt : ResTbl) (hwf : rtWf g rt = true)
    (fuel : Nat) (base : String) :
    ∀ entries st st', traceEntries g rt fuel base entries st = .ok st' →
      TInv rt g st [] → TInv rt g st' [] := by
  intro entries
  induction entries with
  | nil =>
    intro st st' h hinv
    rw [traceEntries] at h
    have hst : st = st' := Except.ok.inj h
    rw [← hst]
    exact hinv
  | cons e es ihe =>
    intro st st' h hinv
    rw [traceEntries] at h
    cases hdt : doTrace g rt fuel e base .top st with
    | error er =>
      rw [hdt] at h
      exact Except.noConfusion h
    | ok st1 =>
      rw [hdt] at h
      have hP := (trace_inv g rt hwf fuel).1 e base .top st st1 [] hdt hinv rfl
      exact ihe st1 st' h hP.1

theorem missing_init (g : Graph) : missing g ⟨[], [], 0⟩ = g.length := by
  unfold missing
  have h : ∀ u, (alook (([] : List (String × TEntry))) u).isNone = true := fun u => rfl
  rw [List.filter_eq_self.mpr (fun x _ => h x)]
  unfold gkeys
  exact List.length_map _ _

/-- **C3** (amended): under the sequential schedule, `trace` terminates on
every finite module graph whose resolution table only resolves into the
graph (fuel `g.length + 2` never runs out), every traced node receives a
postorder number, and for every recorded non-cyclic dependency edge the
dependency's order is strictly below the dependent's.  (The original
claim over the concurrent schedule is refuted by `claim3_cex`.) -/
theorem claim3_thm (g : Graph) (rt : ResTbl) (base : String) (entries : List String)
    (hwf : rtWf g rt = true) :
    traceSeq g rt (g.length + 2) base entries ≠ .error .fuelOut ∧
    ∀ st, traceSeq g rt (g.length + 2) base entries = .ok st →
      (∀ u e, alook st.trace u = some e → e.order.isSome = true) ∧
      ∀ u e d v, alook st.trace u = some e → (d, some v) ∈ e.deps →
        ¬ PathP st.trace v u →
        ∃ ov ou, ordOf st.trace v = some ov ∧ ordOf st.trace u = some ou ∧ ov < ou := by
  have hm0 : missing g ⟨[], [], 0⟩ < g.length + 2 := by
    rw [missing_init]
    omega
  constructor
  · exact traceEntries_fuel g rt hwf (g.length + 2) base entries ⟨[], [], 0⟩ hm0
  · intro st hok
    have hfin : TInv rt g st [] :=
      traceEntries_inv g rt hwf (g.length + 2) base entries ⟨[], [], 0⟩ st hok
        (tinv_init rt g)
    have hall : ∀ u e, alook st.trace u = some e → e.order.isSome = true := by
      intro u e he
      cases ho : e.order with
      | none => exact absurd (hfin.closedOff u e he ho) (List.not_mem_nil u)
      | some o => rfl
    refine ⟨hall, ?_⟩
    intro u e d v he hd hnp
    rcases hfin.postOrd u e d v he hd (hall u e he) with ⟨ov, ou, h1, h2, h3⟩ | hp
    · refine ⟨ov, ou, h1, ?_, h3⟩
      have hou : ordOf st.trace u = e.order := by
        unfold ordOf
        rw [he]
      rw [hou]
      exact h2
    · exact absurd hp hnp

/-- Witness for **C3** at the concrete graph and resolution table of the
counterexample: the table is well formed and the sequential trace cannot
run out of fuel. -/
theorem claim3_witness :
    rtWf traceG traceRT = true ∧
    traceSeq traceG traceRT (traceG.length + 2) "B" ["x", "y"] ≠ .error .fuelOut :=
  ⟨by decide, (claim3_thm traceG traceRT "B" ["x", "y"] (by decide)).1⟩
